import Mathlib

set_option maxRecDepth 100000

/-!
# Verification of the Markdown + LaTeX → Notion block compiler

A shallow embedding of `md_to_notion_batch.py`: text is `List Char`, a
document is split into lines (`List (List Char)`), and every transformation
of the Python source is translated into an executable Lean function.  The
delivery engine's network effects are modelled as explicit event traces
parameterised by response oracles.

Sections:
1. string primitives mirroring the Python `str` methods used by the source;
2. `LatexToNotionConverter` (block-math pass, inline-math pass, final
   newline collapse and strip);
3. `NotionBlockBuilder` (`build_blocks`, `_parse_rich_text`, `_chunk_text`,
   `_split_block_if_needed`);
4. `NotionClient` (`create_page`, `_append_blocks`) as trace-producing
   functions;
5. helper lemmas and the theorems about the spec claims.
-/

/-! ## 1. String primitives (Python `str` semantics on `List Char`) -/

/-- The backtick character (written via its code point). -/
def btChar : Char := Char.ofNat 96

/-- Whitespace as recognised by Python `str.strip` / `\s` on ASCII input:
space, tab, newline, carriage return, vertical tab, form feed. -/
def pyIsSpace (c : Char) : Bool :=
  c = ' ' || c = '\t' || c = '\n' || c = '\r' || c = Char.ofNat 11 || c = Char.ofNat 12

/-- Python `s.strip()`: drop whitespace from both ends. -/
def pyStrip (l : List Char) : List Char :=
  ((l.dropWhile pyIsSpace).reverse.dropWhile pyIsSpace).reverse

/-- Python `s.startswith(p)`. -/
def startsWithL : List Char → List Char → Bool
  | [], _ => true
  | _ :: _, [] => false
  | p :: ps, c :: cs => p = c && startsWithL ps cs

/-- Python `s.endswith(p)`. -/
def endsWithL (p l : List Char) : Bool :=
  startsWithL p.reverse l.reverse

/-- Python `p in s` (substring containment, for nonempty `p`). -/
def containsL (p : List Char) : List Char → Bool
  | [] => startsWithL p []
  | c :: t => startsWithL p (c :: t) || containsL p t

/-- Python `s[:-n]` for `n ≥ 1` (take all but the last `n` characters). -/
def dropEnd (n : Nat) (l : List Char) : List Char :=
  l.take (l.length - n)

/-- Tail-recursive list length (used to compute recursion fuel without
deep evaluation). -/
def lenAux (n : Nat) : List α → Nat
  | [] => n
  | _ :: t => lenAux (n + 1) t

/-- Tail-recursive list length. -/
def lenT (l : List α) : Nat := lenAux 0 l

/-- Worker for `splitNl`: `cur` is the current line reversed, `acc` the
completed lines in reverse order. -/
def splitNlAux (cur : List Char) (acc : List (List Char)) : List Char → List (List Char)
  | [] => (cur.reverse :: acc).reverse
  | c :: rest =>
    if c = '\n' then splitNlAux [] (cur.reverse :: acc) rest
    else splitNlAux (c :: cur) acc rest

/-- Python `text.split('\n')`. -/
def splitNl (t : List Char) : List (List Char) :=
  splitNlAux [] [] t

/-- Python `sep.join(lines)`. -/
def joinWith (sep : List Char) : List (List Char) → List Char
  | [] => []
  | [l] => l
  | l :: ls => l ++ sep ++ joinWith sep ls

/-- `'\n'.join`. -/
def joinNl : List (List Char) → List Char := joinWith ['\n']

/-- `' '.join`. -/
def joinSp : List (List Char) → List Char := joinWith [' ']

/-- Python `text.replace('\r\n', '\n')`. -/
def replCRLF : List Char → List Char
  | [] => []
  | '\r' :: '\n' :: rest => '\n' :: replCRLF rest
  | c :: rest => c :: replCRLF rest

/-- The block-math marker string. -/
def dd : List Char := ['$', '$']

/-- The canonical inline-math opener (dollar + backtick), used by
`'$`' in line` in `_convert_inline_math`. -/
def bq : List Char := ['$', btChar]

/-- The code-fence marker (three backticks). -/
def bt : List Char := [btChar, btChar, btChar]

/-! ## 2. `LatexToNotionConverter` -/

/-- The collection loop of `_convert_block_math`: absorb lines after an
opening marker until a closing line (`$$` alone, or content followed by
`$$`) is found, giving up once more than 30 lines have been collected.
Returns `(found_closing, math_lines, remaining_lines)`. -/
def collectMath (acc : List (List Char)) : List (List Char) → Bool × List (List Char) × List (List Char)
  | [] => (false, acc, [])
  | l :: rest =>
    let ns := pyStrip l
    if ns = dd then (true, acc, rest)
    else if endsWithL dd ns ∧ ns.length > 2 then
      (true, acc ++ [pyStrip (dropEnd 2 ns)], rest)
    else if acc.length > 30 then (false, acc, l :: rest)
    else collectMath (acc ++ [l]) rest

/-- One step of `_convert_block_math`'s outer loop over lines.  `fuel`
bounds the recursion; it is instantiated with the number of lines, which
always suffices because every step consumes at least one line. -/
def cbmAux : Nat → List (List Char) → List (List Char)
  | _, [] => []
  | 0, ls => ls
  | fuel + 1, l :: rest =>
    let s := pyStrip l
    if startsWithL dd s then
      let cao := pyStrip (s.drop 2)
      if cao ≠ [] ∧ endsWithL dd cao then
        [] :: dd :: pyStrip (dropEnd 2 cao) :: dd :: [] :: cbmAux fuel rest
      else
        let st := collectMath (if cao ≠ [] then [cao] else []) rest
        if st.1 ∧ st.2.1 ≠ [] then
          [] :: dd :: pyStrip (joinNl st.2.1) :: dd :: [] :: cbmAux fuel st.2.2
        else
          l :: (st.2.1 ++ cbmAux fuel st.2.2)
    else
      l :: cbmAux fuel rest

/-- `LatexToNotionConverter._convert_block_math`. -/
def convertBlockMath (t : List Char) : List Char :=
  joinNl (cbmAux (lenT (splitNl t)) (splitNl t))

/-- Mirror of the digit test `content[0].isdigit() and re.match(r'^[\d,\.]+$', content)`:
first character a digit and every character a digit, comma or period. -/
def numericLike : List Char → Bool
  | [] => false
  | d :: t => d.isDigit && ((d :: t).all fun c => c.isDigit || c = ',' || c = '.')

/-- The `replace_inline` callback of `_convert_inline_math`: keep the span
unchanged when its content is blank or currency-like, otherwise wrap the
content in the canonical inline marker. -/
def replaceInline (content : List Char) : List Char :=
  if pyStrip content = [] then '$' :: (content ++ ['$'])
  else if numericLike content then '$' :: (content ++ ['$'])
  else '$' :: btChar :: (content ++ [btChar, '$'])

/-- Search for the closing `$` of an inline span, mirroring the non-greedy
regex `(.+?)(?<!\$)\$(?!\$)`: the first `$` whose preceding character is
not `$` and whose following character is not `$`, with at least one content
character collected; `.` never matches a newline.  `acc` holds the content
seen so far, reversed. -/
def findClose (acc : List Char) : List Char → Option (List Char × List Char)
  | [] => none
  | c :: rest =>
    if c = '$' then
      if acc ≠ [] ∧ acc.head? ≠ some '$' ∧ rest.head? ≠ some '$' then
        some (acc.reverse, rest)
      else findClose ('$' :: acc) rest
    else if c = '\n' then none
    else findClose (c :: acc) rest

/-- The scanning loop of `re.sub(r'(?<!\$)\$(?!\$)(.+?)(?<!\$)\$(?!\$)', replace_inline, line)`:
`prev` is the character preceding the scan position in the original line.
`fuel` is instantiated with the line length, which always suffices. -/
def subAux : Nat → Option Char → List Char → List Char
  | _, _, [] => []
  | 0, _, l => l
  | fuel + 1, prev, c :: rest =>
    if c = '$' ∧ prev ≠ some '$' ∧ rest.head? ≠ some '$' then
      match findClose [] rest with
      | some (content, rest2) => replaceInline content ++ subAux fuel (some '$') rest2
      | none => c :: subAux fuel (some c) rest
    else c :: subAux fuel (some c) rest

/-- The per-line inline substitution. -/
def subInline (l : List Char) : List Char :=
  subAux (lenT l) none l

/-- The line loop of `_convert_inline_math`, threading the
`in_block_math` flag which is toggled by each bare `$$` line; lines inside
block math or already containing the canonical marker are left alone. -/
def cimAux : Bool → List (List Char) → List (List Char)
  | _, [] => []
  | inB, l :: rest =>
    if pyStrip l = dd then l :: cimAux (!inB) rest
    else if inB || containsL bq l then l :: cimAux inB rest
    else subInline l :: cimAux inB rest

/-- `LatexToNotionConverter._convert_inline_math`. -/
def convertInlineMath (t : List Char) : List Char :=
  joinNl (cimAux false (splitNl t))

/-- Emit a pending run of `n` newlines, collapsing runs of 4 or more to
exactly 3 (the effect of `re.sub(r'\n{4,}', '\n\n\n', text)`). -/
def emitNl (n : Nat) : List Char :=
  List.replicate (if n ≥ 4 then 3 else n) '\n'

/-- Scanner for the newline collapse; `n` counts pending newlines. -/
def collapseGo : List Char → Nat → List Char
  | [], n => emitNl n
  | c :: rest, n =>
    if c = '\n' then collapseGo rest (n + 1)
    else emitNl n ++ c :: collapseGo rest 0

/-- `re.sub(r'\n{4,}', '\n\n\n', text)`. -/
def collapseNl (t : List Char) : List Char :=
  collapseGo t 0

/-- `LatexToNotionConverter.convert`: CRLF normalisation, block pass,
inline pass, newline collapse, final strip. -/
def convert (t : List Char) : List Char :=
  pyStrip (collapseNl (convertInlineMath (convertBlockMath (replCRLF t))))

/-! ## 3. `NotionBlockBuilder` -/

/-- The single annotation key passed to `_chunk_text`
(`{"bold": True}`, `{"italic": True}` or `{"code": True}`). -/
inductive Annot where
  | boldA
  | italicA
  | codeA
deriving DecidableEq, Repr

/-- One element of a Notion `rich_text` array: a text span with optional
annotation and optional link, or an inline equation. -/
inductive Rich where
  | textSpan (content : List Char) (an : Option Annot) (url : Option (List Char))
  | eqSpan (expr : List Char)
deriving DecidableEq, Repr

/-- A Notion API block, tagged as in the Python dictionaries. -/
inductive Blk where
  | para (rt : List Rich)
  | heading (level : Nat) (rt : List Rich)
  | bullet (rt : List Rich)
  | numbered (rt : List Rich)
  | quoteB (rt : List Rich)
  | codeBlk (rt : List Rich) (lang : List Char)
  | eqBlk (expr : List Char)
  | divider
deriving DecidableEq, Repr

/-- The default code-block language (`"plain text"`). -/
def ptLang : List Char := "plain text".data

/-- `NotionBlockBuilder._chunk_text`: cut text into spans of at most 2000
characters, each carrying the same annotation.  `fuel` is instantiated
with the content length, which always suffices. -/
def chunkText (an : Option Annot) : Nat → List Char → List Rich
  | _, [] => []
  | 0, content => [Rich.textSpan content an none]
  | fuel + 1, content =>
    Rich.textSpan (content.take 2000) an none :: chunkText an fuel (content.drop 2000)

/-- A recognised inline construct of `_parse_rich_text`'s regex, with its
captured content. -/
inductive Tok where
  | imath (expr : List Char)
  | boldT (c : List Char)
  | italT (c : List Char)
  | codeT (c : List Char)
  | linkT (txt url : List Char)
deriving DecidableEq, Repr

/-- The link alternative `[text](url)` of `_parse_rich_text`'s regex,
tried at the head of `l`. -/
def matchAtLink (l : List Char) : Option (Tok × List Char) :=
  match l with
  | c1 :: rest =>
    if c1 = '[' then
      let t := rest.takeWhile (fun c => c ≠ ']')
      match t, rest.drop t.length with
      | _ :: _, b :: p :: rest2 =>
        if b = ']' ∧ p = '(' then
          let u := rest2.takeWhile (fun c => c ≠ ')')
          match u, rest2.drop u.length with
          | _ :: _, q :: r => if q = ')' then some (Tok.linkT t u, r) else none
          | _, _ => none
        else none
      | _, _ => none
    else none
  | _ => none

/-- The inline-code alternative `` `...` ``, then the link alternative. -/
def matchAtCode (l : List Char) : Option (Tok × List Char) :=
  match l with
  | c1 :: rest =>
    if c1 = btChar then
      let e := rest.takeWhile (fun c => c ≠ btChar)
      match e, rest.drop e.length with
      | _ :: _, b :: r => if b = btChar then some (Tok.codeT e, r) else matchAtLink l
      | _, _ => matchAtLink l
    else matchAtLink l
  | _ => matchAtLink l

/-- The italic alternative `*...*`, then the remaining alternatives. -/
def matchAtItal (l : List Char) : Option (Tok × List Char) :=
  match l with
  | c1 :: rest =>
    if c1 = '*' then
      let e := rest.takeWhile (fun c => c ≠ '*')
      match e, rest.drop e.length with
      | _ :: _, b :: r => if b = '*' then some (Tok.italT e, r) else matchAtCode l
      | _, _ => matchAtCode l
    else matchAtCode l
  | _ => matchAtCode l

/-- The bold alternative `**...**`, then the remaining alternatives. -/
def matchAtStar (l : List Char) : Option (Tok × List Char) :=
  match l with
  | c1 :: c2 :: rest =>
    if c1 = '*' ∧ c2 = '*' then
      let e := rest.takeWhile (fun c => c ≠ '*')
      match e, rest.drop e.length with
      | _ :: _, b :: d :: r => if b = '*' ∧ d = '*' then some (Tok.boldT e, r) else matchAtItal l
      | _, _ => matchAtItal l
    else matchAtItal l
  | _ => matchAtItal l

/-- Try the five regex alternatives at the head of `l`, in the pattern's
priority order; on success return the token and the rest of the line. -/
def matchAt (l : List Char) : Option (Tok × List Char) :=
  match l with
  | c1 :: c2 :: rest =>
    if c1 = '$' ∧ c2 = btChar then
      let e := rest.takeWhile (fun c => c ≠ btChar)
      match e, rest.drop e.length with
      | _ :: _, b :: d :: r => if b = btChar ∧ d = '$' then some (Tok.imath e, r) else matchAtStar l
      | _, _ => matchAtStar l
    else matchAtStar l
  | _ => matchAtStar l

/-- The spans a recognised construct contributes to the `rich_text` list. -/
def tokSpans : Tok → List Rich
  | Tok.imath e => [Rich.eqSpan e]
  | Tok.boldT c => chunkText (some Annot.boldA) (lenT c) c
  | Tok.italT c => chunkText (some Annot.italicA) (lenT c) c
  | Tok.codeT c => chunkText (some Annot.codeA) (lenT c) c
  | Tok.linkT t u => [Rich.textSpan t none (some u)]

/-- The scan of `_parse_rich_text` over a line: plain runs between matches
are chunked, matches contribute their spans.  `accR` is the pending plain
run, reversed; `fuel` is instantiated with the line length. -/
def prtAux : Nat → List Char → List Char → List Rich
  | _, accR, [] =>
    if accR = [] then [] else chunkText none (lenT accR) accR.reverse
  | 0, accR, l =>
    chunkText none (lenT accR + lenT l) (accR.reverse ++ l)
  | fuel + 1, accR, c :: rest =>
    match matchAt (c :: rest) with
    | some (tok, r2) =>
      (if accR = [] then [] else chunkText none (lenT accR) accR.reverse)
        ++ tokSpans tok ++ prtAux fuel [] r2
    | none => prtAux fuel (c :: accR) rest

/-- `NotionBlockBuilder._parse_rich_text`, including the fallback that an
empty result yields a single span holding the raw text. -/
def parseRichText (t : List Char) : List Rich :=
  let r := prtAux (lenT t) [] t
  if r = [] then [Rich.textSpan t none none] else r

/-- `re.match(r'^(#{1,3})\s+(.*)', stripped)`: at most three leading `#`
characters followed by at least one whitespace; returns the level and the
text after the whitespace run. -/
def headingMatch (s : List Char) : Option (Nat × List Char) :=
  let hs := s.takeWhile (fun c => c = '#')
  if 1 ≤ hs.length ∧ hs.length ≤ 3 then
    let rest := s.drop hs.length
    match rest with
    | c :: _ => if pyIsSpace c then some (hs.length, rest.dropWhile pyIsSpace) else none
    | [] => none
  else none

/-- `re.match(r'^\d+\.\s+(.*)', stripped)`: digits, a period, whitespace;
returns the text after the whitespace run. -/
def numMatch (s : List Char) : Option (List Char) :=
  let ds := s.takeWhile Char.isDigit
  if ds = [] then none
  else
    match s.drop ds.length with
    | '.' :: rest2 =>
      match rest2 with
      | c :: _ => if pyIsSpace c then some (rest2.dropWhile pyIsSpace) else none
      | [] => none
    | _ => none

/-- The look-ahead of the paragraph loop in `build_blocks`: a stripped line
that terminates paragraph absorption. -/
def paraBreak (ns : List Char) : Bool :=
  ns = [] || startsWithL ['#'] ns || startsWithL ['-', ' '] ns ||
  startsWithL ['*', ' '] ns || ns = dd || startsWithL bt ns ||
  startsWithL ['>', ' '] ns || ns = "---".data || ns = "***".data ||
  ns = "___".data || (numMatch ns).isSome

/-- The math-collection loop of `build_blocks`: absorb raw lines until a
line strips to `$$`, stopping once 50 lines have been collected.  Returns
`(found_closing, math_lines, remaining_lines)`. -/
def collectMath50 (acc : List (List Char)) : List (List Char) → Bool × List (List Char) × List (List Char)
  | [] => (false, acc, [])
  | l :: rest =>
    if acc.length ≥ 50 then (false, acc, l :: rest)
    else if pyStrip l = dd then (true, acc, rest)
    else collectMath50 (acc ++ [l]) rest

/-- The code-fence loop of `build_blocks`: absorb raw lines until a line
strips to something starting with three backticks (that closing line is
skipped); at end of input everything has been absorbed. -/
def collectCode (acc : List (List Char)) : List (List Char) → List (List Char) × List (List Char)
  | [] => (acc, [])
  | l :: rest =>
    if startsWithL bt (pyStrip l) then (acc, rest)
    else collectCode (acc ++ [l]) rest

/-- The quote loop of `build_blocks`: absorb subsequent `> `-prefixed lines,
keeping the text after the two marker characters of the stripped line. -/
def collectQuote (acc : List (List Char)) : List (List Char) → List (List Char) × List (List Char)
  | [] => (acc, [])
  | l :: rest =>
    if startsWithL ['>', ' '] (pyStrip l) then
      collectQuote (acc ++ [(pyStrip l).drop 2]) rest
    else (acc, l :: rest)

/-- The paragraph loop of `build_blocks`: absorb stripped lines until a
`paraBreak` line or end of input. -/
def collectPara (acc : List (List Char)) : List (List Char) → List (List Char) × List (List Char)
  | [] => (acc, [])
  | l :: rest =>
    if paraBreak (pyStrip l) then (acc, l :: rest)
    else collectPara (acc ++ [pyStrip l]) rest

/-- The line loop of `build_blocks` (before size enforcement).  `fuel` is
instantiated with the number of lines, which always suffices because every
step consumes at least one line. -/
def bbAux : Nat → List (List Char) → List Blk
  | _, [] => []
  | 0, _ => []
  | fuel + 1, l :: rest =>
    let s := pyStrip l
    if s = [] then bbAux fuel rest
    else if s = dd then
      let st := collectMath50 [] rest
      if st.1 then
        Blk.eqBlk (pyStrip (joinNl st.2.1)) :: bbAux fuel st.2.2
      else
        Blk.para (parseRichText (dd ++ joinSp st.2.1)) :: bbAux fuel st.2.2
    else if startsWithL bt s then
      let lang := pyStrip (s.drop 3)
      let st := collectCode [] rest
      Blk.codeBlk [Rich.textSpan (joinNl st.1) none none]
          (if lang = [] then ptLang else lang) :: bbAux fuel st.2
    else if s = "---".data ∨ s = "***".data ∨ s = "___".data then
      Blk.divider :: bbAux fuel rest
    else
      match headingMatch s with
      | some (level, txt) => Blk.heading level (parseRichText txt) :: bbAux fuel rest
      | none =>
        if startsWithL ['>', ' '] s then
          let st := collectQuote [s.drop 2] rest
          Blk.quoteB (parseRichText (joinSp st.1)) :: bbAux fuel st.2
        else if startsWithL ['-', ' '] s ∨ startsWithL ['*', ' '] s then
          Blk.bullet (parseRichText (s.drop 2)) :: bbAux fuel rest
        else
          match numMatch s with
          | some txt => Blk.numbered (parseRichText txt) :: bbAux fuel rest
          | none =>
            let st := collectPara [s] rest
            Blk.para (parseRichText (joinSp st.1)) :: bbAux fuel st.2

/-- The `rich_text` list of a block, when its inner dictionary has one
(`inner.get("rich_text")`): equations and dividers have none. -/
def richOf : Blk → Option (List Rich)
  | Blk.para rt => some rt
  | Blk.heading _ rt => some rt
  | Blk.bullet rt => some rt
  | Blk.numbered rt => some rt
  | Blk.quoteB rt => some rt
  | Blk.codeBlk rt _ => some rt
  | Blk.eqBlk _ => none
  | Blk.divider => none

/-- Rebuild a block with a replacement `rich_text` list, copying every
other attribute (heading level, code language) onto the clone. -/
def setRich (b : Blk) (rt : List Rich) : Blk :=
  match b with
  | Blk.para _ => Blk.para rt
  | Blk.heading level _ => Blk.heading level rt
  | Blk.bullet _ => Blk.bullet rt
  | Blk.numbered _ => Blk.numbered rt
  | Blk.quoteB _ => Blk.quoteB rt
  | Blk.codeBlk _ lang => Blk.codeBlk rt lang
  | Blk.eqBlk e => Blk.eqBlk e
  | Blk.divider => Blk.divider

/-- Contiguous slices of at most 100 elements, in order (the effect of
`for i in range(0, len(rich_text), 100)`).  `fuel` is instantiated with
the list length, which always suffices. -/
def chunksAux {α : Type} : Nat → List α → List (List α)
  | _, [] => []
  | 0, l => [l]
  | fuel + 1, l => l.take 100 :: chunksAux fuel (l.drop 100)

/-- Slices of at most 100 elements. -/
def chunks100 {α : Type} (l : List α) : List (List α) :=
  chunksAux (lenT l) l

/-- `NotionBlockBuilder._split_block_if_needed`. -/
def splitIfNeeded (b : Blk) : List Blk :=
  match richOf b with
  | none => [b]
  | some rt =>
    if rt = [] ∨ rt.length ≤ 100 then [b]
    else (chunks100 rt).map (setRich b)

/-- The final pass of `build_blocks`: split every block whose `rich_text`
exceeds 100 elements. -/
def enforceLimits (bs : List Blk) : List Blk :=
  (bs.map splitIfNeeded).flatten

/-- `NotionBlockBuilder.build_blocks`. -/
def buildBlocks (t : List Char) : List Blk :=
  enforceLimits (bbAux (lenT (splitNl t)) (splitNl t))

/-! ## 4. `NotionClient` as trace-producing functions

The network is modelled by response oracles: `batchOk` tells whether the
whole-batch PATCH succeeds, `unitOk i` whether the single-unit PATCH for
unit `i` succeeds.  Every network call and every `time.sleep` becomes an
event, in program order. -/

/-- An observable action of `_append_blocks`: the whole-batch PATCH (with
its unit count), a single-unit PATCH (with the unit's index), or a
`time.sleep` (in milliseconds). -/
inductive Ev where
  | patchBatch (n : Nat)
  | patchUnit (idx : Nat)
  | sleepMs (ms : Nat)
deriving DecidableEq, Repr

/-- The single-unit retry loop of `_append_blocks`: one PATCH per unit;
only a successful PATCH is followed by `time.sleep(0.15)`. -/
def retryUnits (unitOk : Nat → Bool) : Nat → List Blk → List Ev
  | _, [] => []
  | idx, _ :: bs =>
    Ev.patchUnit idx :: (if unitOk idx then [Ev.sleepMs 150] else []) ++ retryUnits unitOk (idx + 1) bs

/-- `NotionClient._append_blocks`: the batch PATCH, then, only when it
fails, the single-unit retry loop. -/
def appendEvents (batchOk : Bool) (unitOk : Nat → Bool) (blocks : List Blk) : List Ev :=
  Ev.patchBatch blocks.length :: (if batchOk then [] else retryUnits unitOk 0 blocks)

/-- An event that is a network call (everything except a sleep). -/
def isCall : Ev → Bool
  | Ev.sleepMs _ => false
  | _ => true

/-- The pacing property claimed for the engine: no two adjacent events of
the trace are both network calls, i.e. every call is followed by a sleep
(or ends the trace) before the next call. -/
def noAdjacentCalls : List Ev → Bool
  | a :: b :: t => !(isCall a && isCall b) && noAdjacentCalls (b :: t)
  | _ => true

/-- Whether `a` is immediately followed by `b` somewhere in the trace. -/
def hasAdjPair (a b : Ev) : List Ev → Bool
  | x :: y :: t => (x = a && y = b) || hasAdjPair a b (y :: t)
  | _ => false

/-- An observable action of `create_page`: a page-creation POST with its
initial children, an invocation of `_append_blocks` with one batch, or a
`time.sleep`. -/
inductive PEv where
  | createCall (children : List Blk)
  | appendBatch (batch : List Blk)
  | sleepMs (ms : Nat)
deriving DecidableEq, Repr

/-- The append loop of `create_page`: successive batches of at most 100
blocks, each followed by `time.sleep(0.35)`.  `fuel` is instantiated with
the number of remaining blocks, which always suffices. -/
def appendLoopAux : Nat → List Blk → List PEv
  | _, [] => []
  | 0, remaining => [PEv.appendBatch remaining]
  | fuel + 1, remaining =>
    PEv.appendBatch (remaining.take 100) :: PEv.sleepMs 350 ::
      appendLoopAux fuel (remaining.drop 100)

/-- The append loop of `create_page` over the remaining blocks. -/
def appendLoop (remaining : List Blk) : List PEv :=
  appendLoopAux (lenT remaining) remaining

/-- `NotionClient.create_page`: POST with the first 100 blocks; on failure
retry the POST with no children and treat all blocks as remaining; if that
fails too, give up with no append attempted.  Returns the outcome
(`some ()` for a created page) and the event trace. -/
def createPage (ok1 ok2 : Bool) (blocks : List Blk) : Option Unit × List PEv :=
  if ok1 then
    (some (), PEv.createCall (blocks.take 100) :: appendLoop (blocks.drop 100))
  else if ok2 then
    (some (), PEv.createCall (blocks.take 100) :: PEv.createCall [] :: appendLoop blocks)
  else
    (none, [PEv.createCall (blocks.take 100), PEv.createCall []])

/-- The batches handed to `_append_blocks` by a `create_page` trace. -/
def batchesOf (trace : List PEv) : List (List Blk) :=
  trace.filterMap fun e =>
    match e with
    | PEv.appendBatch b => some b
    | _ => none

/-! ## 5. Inputs used by concrete theorems -/

/-- A fenced code block whose body is a run of 2001 characters. -/
def c1CodeInput : List Char := bt ++ '\n' :: (List.replicate 2001 'a' ++ '\n' :: bt)

/-- A paragraph consisting of a single run of 5000 plain characters. -/
def c1ParaInput : List Char := List.replicate 5000 'a'

/-- An opening line `$$x` followed by 31 ordinary lines and no closing
marker, so the 30-collected-line safety bound of the block pass fires. -/
def c3Input : List Char := "$$x".data ++ (List.replicate 31 ('\n' :: "a".data)).flatten

/-- Ordinary text surrounding a canonical block formula. -/
def c5Input : List Char := "a\n$$\nx\n$$\nb".data


/-! ## 6. Helper lemmas -/

theorem lenAux_eq {α : Type} (l : List α) : ∀ n, lenAux n l = n + l.length := by
  induction l with
  | nil => intro n; simp [lenAux]
  | cons a t ih => intro n; rw [lenAux, ih]; simp; omega

theorem lenT_eq {α : Type} (l : List α) : lenT l = l.length := by
  simp [lenT, lenAux_eq]

theorem dropWhileLenLe {α : Type} (p : α → Bool) (l : List α) :
    (l.dropWhile p).length ≤ l.length := by
  induction l with
  | nil => simp
  | cons a t ih =>
    rw [List.dropWhile_cons]
    split
    · simp
      omega
    · simp

theorem dropWhileEqSelfOfLength {α : Type} (p : α → Bool) (l : List α)
    (h : (List.dropWhile p l).length = l.length) : List.dropWhile p l = l := by
  induction l with
  | nil => simp
  | cons a t ih =>
    cases hb : p a with
    | false => rw [List.dropWhile_cons, hb]; simp
    | true =>
      rw [List.dropWhile_cons, hb] at h
      simp at h
      have := dropWhileLenLe p t
      exfalso
      omega

theorem dropWhileHeadFalse {α : Type} (p : α → Bool) (c : α) (t : List α)
    (h : List.dropWhile p (c :: t) = c :: t) : p c = false := by
  cases hb : p c
  · rfl
  · exfalso
    rw [List.dropWhile_cons, hb] at h
    simp at h
    have h1 := dropWhileLenLe p t
    rw [h] at h1
    simp at h1

theorem pyStripSelfParts (l : List Char) (h : pyStrip l = l) :
    List.dropWhile pyIsSpace l = l ∧
    List.dropWhile pyIsSpace l.reverse = l.reverse := by
  unfold pyStrip at h
  have hlen : ((List.dropWhile pyIsSpace (List.dropWhile pyIsSpace l).reverse).reverse).length = l.length := by
    rw [h]
  simp only [List.length_reverse] at hlen
  have h1 : (List.dropWhile pyIsSpace (List.dropWhile pyIsSpace l).reverse).length ≤
      (List.dropWhile pyIsSpace l).length := by
    have := dropWhileLenLe pyIsSpace (List.dropWhile pyIsSpace l).reverse
    simpa using this
  have h2 : (List.dropWhile pyIsSpace l).length ≤ l.length := dropWhileLenLe _ _
  have e2 : (List.dropWhile pyIsSpace l).length = l.length := by omega
  have d1 : List.dropWhile pyIsSpace l = l := dropWhileEqSelfOfLength _ _ e2
  refine ⟨d1, ?_⟩
  rw [d1] at h
  have e3 : (List.dropWhile pyIsSpace l.reverse).length = l.reverse.length := by
    rw [d1] at hlen
    simpa using hlen
  exact dropWhileEqSelfOfLength _ _ e3

theorem pyStripHeadFact (l : List Char) (h : pyStrip l = l) :
    ∀ c, l.head? = some c → pyIsSpace c = false := by
  intro c hc
  obtain ⟨d1, _⟩ := pyStripSelfParts l h
  cases l with
  | nil => simp at hc
  | cons a t =>
    simp at hc
    subst hc
    exact dropWhileHeadFalse _ _ _ d1

theorem pyStripLastFact (l : List Char) (h : pyStrip l = l) :
    ∀ c, l.getLast? = some c → pyIsSpace c = false := by
  intro c hc
  obtain ⟨_, d2⟩ := pyStripSelfParts l h
  have hrev : l.reverse.head? = some c := by
    rw [List.head?_reverse]
    exact hc
  cases hr : l.reverse with
  | nil => rw [hr] at hrev; simp at hrev
  | cons a t =>
    rw [hr] at hrev d2
    simp at hrev
    subst hrev
    exact dropWhileHeadFalse _ _ _ d2

theorem pyStripEqSelfOf (l : List Char)
    (h1 : ∀ c, l.head? = some c → pyIsSpace c = false)
    (h2 : ∀ c, l.getLast? = some c → pyIsSpace c = false) : pyStrip l = l := by
  unfold pyStrip
  cases l with
  | nil => rfl
  | cons a t =>
    have ha : pyIsSpace a = false := h1 a rfl
    rw [List.dropWhile_cons, ha]
    simp only [Bool.false_eq_true, if_false]
    cases hr : (a :: t).reverse with
    | nil => simp at hr
    | cons b s =>
      have hb : pyIsSpace b = false := by
        apply h2
        rw [← List.head?_reverse, hr]
        rfl
      rw [List.dropWhile_cons, hb]
      simp only [Bool.false_eq_true, if_false]
      rw [← hr, List.reverse_reverse]

theorem splitNlAuxNoNl (xs : List Char) : ∀ cur acc, '\n' ∉ xs →
    splitNlAux cur acc xs = ((xs.reverse ++ cur).reverse :: acc).reverse := by
  induction xs with
  | nil => intro cur acc _; simp [splitNlAux]
  | cons c t ih =>
    intro cur acc h
    have hc : c ≠ '\n' := by
      intro he
      exact h (by simp [he])
    rw [splitNlAux, if_neg hc, ih (c :: cur) acc (by intro hm; exact h (by simp [hm]))]
    simp

theorem splitNlAuxAppendNl (xs : List Char) : ∀ cur acc ys, '\n' ∉ xs →
    splitNlAux cur acc (xs ++ '\n' :: ys) =
      splitNlAux [] ((xs.reverse ++ cur).reverse :: acc) ys := by
  induction xs with
  | nil => intro cur acc ys _; simp [splitNlAux]
  | cons c t ih =>
    intro cur acc ys h
    have hc : c ≠ '\n' := by
      intro he
      exact h (by simp [he])
    rw [List.cons_append, splitNlAux, if_neg hc,
      ih (c :: cur) acc ys (by intro hm; exact h (by simp [hm]))]
    simp

theorem splitNlAuxAcc : ∀ (t cur : List Char) (acc : List (List Char)),
    splitNlAux cur acc t = acc.reverse ++ splitNlAux cur [] t := by
  intro t
  induction t with
  | nil => intro cur acc; simp [splitNlAux]
  | cons c r ih =>
    intro cur acc
    by_cases hc : c = '\n'
    · subst hc
      rw [splitNlAux, if_pos rfl, splitNlAux, if_pos rfl,
        ih [] (cur.reverse :: acc), ih [] [cur.reverse]]
      simp
    · rw [splitNlAux, if_neg hc, splitNlAux, if_neg hc, ih (c :: cur) acc]

theorem splitNlNoNl (l : List Char) (h : '\n' ∉ l) : splitNl l = [l] := by
  rw [splitNl, splitNlAuxNoNl l [] [] h]
  simp

theorem splitNlAppendNl (xs ys : List Char) (h : '\n' ∉ xs) :
    splitNl (xs ++ '\n' :: ys) = xs :: splitNl ys := by
  rw [splitNl, splitNlAuxAppendNl xs [] [] ys h, splitNlAuxAcc]
  simp [splitNl]

theorem joinNlSingle (l : List Char) : joinNl [l] = l := rfl

theorem joinNlPair (l1 l2 : List Char) : joinNl [l1, l2] = l1 ++ '\n' :: l2 := by
  simp [joinNl, joinWith]

theorem startsWithLSelf (p r : List Char) : startsWithL p (p ++ r) = true := by
  induction p with
  | nil => rfl
  | cons c t ih => simp [startsWithL, ih]

theorem startsWithLConsNe (p c : Char) (ps cs : List Char) (h : p ≠ c) :
    startsWithL (p :: ps) (c :: cs) = false := by
  simp [startsWithL, h]

theorem startsWithLNil (p : Char) (ps : List Char) : startsWithL (p :: ps) [] = false := rfl

theorem endsWithLAppend (l : List Char) : endsWithL dd (l ++ dd) = true := by
  rw [endsWithL, List.reverse_append]
  exact startsWithLSelf dd.reverse l.reverse

theorem dropWhileReplicate (p : Char → Bool) (c : Char) (hp : p c = false) (n : Nat) :
    List.dropWhile p (List.replicate n c) = List.replicate n c := by
  cases n with
  | zero => simp
  | succ m => rw [List.replicate_succ, List.dropWhile_cons, hp]; simp

theorem pyStripReplicate (c : Char) (hc : pyIsSpace c = false) (n : Nat) :
    pyStrip (List.replicate n c) = List.replicate n c := by
  unfold pyStrip
  rw [dropWhileReplicate pyIsSpace c hc, List.reverse_replicate,
    dropWhileReplicate pyIsSpace c hc, List.reverse_replicate]

theorem startsWithLReplicateNe (p c : Char) (ps : List Char) (h : p ≠ c) (n : Nat) (hn : n ≠ 0) :
    startsWithL (p :: ps) (List.replicate n c) = false := by
  cases n with
  | zero => exact absurd rfl hn
  | succ m => rw [List.replicate_succ]; exact startsWithLConsNe p c ps _ h

theorem takeWhileReplicate (p : Char → Bool) (c : Char) (hp : p c = false) (n : Nat) :
    List.takeWhile p (List.replicate n c) = [] := by
  cases n with
  | zero => simp
  | succ m => rw [List.replicate_succ, List.takeWhile_cons, hp]; simp

theorem matchAtLinkPlain (c : Char) (l : List Char) (h : c ≠ '[') :
    matchAtLink (c :: l) = none := by
  rw [matchAtLink]
  simp [h]

theorem matchAtCodePlain (c : Char) (l : List Char) (h1 : c ≠ btChar) (h2 : c ≠ '[') :
    matchAtCode (c :: l) = none := by
  rw [matchAtCode]
  simp only [h1, false_and, if_false, if_neg h1]
  exact matchAtLinkPlain c l h2

theorem matchAtItalPlain (c : Char) (l : List Char) (h1 : c ≠ '*') (h2 : c ≠ btChar)
    (h3 : c ≠ '[') : matchAtItal (c :: l) = none := by
  rw [matchAtItal]
  simp only [if_neg h1]
  exact matchAtCodePlain c l h2 h3

theorem matchAtStarPlain (c : Char) (l : List Char) (h1 : c ≠ '*') (h2 : c ≠ btChar)
    (h3 : c ≠ '[') : matchAtStar (c :: l) = none := by
  cases l with
  | nil =>
    show matchAtItal [c] = none
    exact matchAtItalPlain c [] h1 h2 h3
  | cons d r =>
    rw [matchAtStar, if_neg (show ¬(c = '*' ∧ d = '*') from by simp [h1])]
    exact matchAtItalPlain c (d :: r) h1 h2 h3

theorem matchAtPlain (c : Char) (l : List Char) (h0 : c ≠ '$') (h1 : c ≠ '*')
    (h2 : c ≠ btChar) (h3 : c ≠ '[') : matchAt (c :: l) = none := by
  cases l with
  | nil =>
    show matchAtStar [c] = none
    exact matchAtStarPlain c [] h1 h2 h3
  | cons d r =>
    rw [matchAt, if_neg (show ¬(c = '$' ∧ d = btChar) from by simp [h0])]
    exact matchAtStarPlain c (d :: r) h1 h2 h3

theorem chunkTextCons (an : Option Annot) (fuel : Nat) (l : List Char) (h : l ≠ []) :
    chunkText an (fuel + 1) l =
      Rich.textSpan (l.take 2000) an none :: chunkText an fuel (l.drop 2000) := by
  cases l with
  | nil => exact absurd rfl h
  | cons a t => rfl

theorem chunkTextNeNil (an : Option Annot) (fuel : Nat) (l : List Char) (h : l ≠ []) :
    chunkText an fuel l ≠ [] := by
  cases l with
  | nil => exact absurd rfl h
  | cons a t =>
    cases fuel with
    | zero => simp [chunkText]
    | succ f => simp [chunkTextCons an f (a :: t) (by simp)]

theorem prtAuxNil (fuel : Nat) (accR : List Char) :
    prtAux fuel accR [] = if accR = [] then [] else chunkText none (lenT accR) accR.reverse := by
  cases fuel with
  | zero => rfl
  | succ f => rfl

theorem prtAuxConsNone (f : Nat) (accR : List Char) (c : Char) (rest : List Char)
    (h : matchAt (c :: rest) = none) :
    prtAux (f + 1) accR (c :: rest) = prtAux f (c :: accR) rest := by
  rw [prtAux, h]

theorem prtAuxConsSome (f : Nat) (accR : List Char) (c : Char) (rest : List Char)
    (tok : Tok) (r2 : List Char) (h : matchAt (c :: rest) = some (tok, r2)) :
    prtAux (f + 1) accR (c :: rest) =
      (if accR = [] then [] else chunkText none (lenT accR) accR.reverse)
        ++ tokSpans tok ++ prtAux f [] r2 := by
  rw [prtAux, h]

theorem prtAuxRun (c : Char) (h0 : c ≠ '$') (h1 : c ≠ '*') (h2 : c ≠ btChar) (h3 : c ≠ '[') :
    ∀ n fuel accR, n ≤ fuel →
      prtAux fuel accR (List.replicate n c) =
        (if accR = [] ∧ n = 0 then []
         else chunkText none (lenT (accR.reverse ++ List.replicate n c))
                (accR.reverse ++ List.replicate n c)) := by
  intro n
  induction n with
  | zero =>
    intro fuel accR _
    rw [List.replicate_zero, prtAuxNil]
    by_cases ha : accR = []
    · simp [ha]
    · simp only [ha, false_and, if_false]
      simp [lenT_eq]
  | succ m ih =>
    intro fuel accR hle
    cases fuel with
    | zero => omega
    | succ f =>
      rw [List.replicate_succ, prtAuxConsNone f accR c _ (matchAtPlain c _ h0 h1 h2 h3),
        ih f (c :: accR) (by omega)]
      simp [List.replicate_succ]

theorem parseRichTextRun (c : Char) (h0 : c ≠ '$') (h1 : c ≠ '*') (h2 : c ≠ btChar)
    (h3 : c ≠ '[') (n : Nat) (hn : n ≠ 0) :
    parseRichText (List.replicate n c) = chunkText none n (List.replicate n c) := by
  unfold parseRichText
  rw [lenT_eq, List.length_replicate, prtAuxRun c h0 h1 h2 h3 n n [] (le_refl n)]
  simp only [hn, and_false, if_false, List.reverse_nil, List.nil_append]
  rw [lenT_eq, List.length_replicate]
  have hne := chunkTextNeNil none n (List.replicate n c) (by simp [hn])
  simp [hne]

theorem bbAuxNil (fuel : Nat) : bbAux fuel [] = [] := by
  cases fuel with
  | zero => rfl
  | succ f => rfl

theorem bbAuxCodeFence (fuel : Nat) (l : List Char) (rest : List (List Char))
    (hne : pyStrip l ≠ []) (hdd : pyStrip l ≠ dd)
    (hs : startsWithL bt (pyStrip l) = true) :
    bbAux (fuel + 1) (l :: rest) =
      Blk.codeBlk [Rich.textSpan (joinNl (collectCode [] rest).1) none none]
          (if pyStrip ((pyStrip l).drop 3) = [] then ptLang else pyStrip ((pyStrip l).drop 3))
        :: bbAux fuel (collectCode [] rest).2 := by
  rw [bbAux]
  simp only [if_neg hne, if_neg hdd, hs, if_true]

theorem bbAuxMathFound (fuel : Nat) (l : List Char) (rest : List (List Char))
    (ml rest2 : List (List Char)) (h : pyStrip l = dd)
    (hc : collectMath50 [] rest = (true, ml, rest2)) :
    bbAux (fuel + 1) (l :: rest) = Blk.eqBlk (pyStrip (joinNl ml)) :: bbAux fuel rest2 := by
  rw [bbAux]
  simp only [h, hc]
  norm_num [dd]
  exact fun hx => absurd hx (by simp)

theorem bbAuxMathLost (fuel : Nat) (l : List Char) (rest : List (List Char))
    (ml rest2 : List (List Char)) (h : pyStrip l = dd)
    (hc : collectMath50 [] rest = (false, ml, rest2)) :
    bbAux (fuel + 1) (l :: rest) =
      Blk.para (parseRichText (dd ++ joinSp ml)) :: bbAux fuel rest2 := by
  rw [bbAux]
  simp only [h, hc]
  norm_num [dd]
  exact fun hx => absurd hx (by simp)

theorem bbAuxParaLine (fuel : Nat) (l : List Char) (rest : List (List Char))
    (h1 : pyStrip l ≠ []) (h2 : pyStrip l ≠ dd)
    (h3 : startsWithL bt (pyStrip l) = false)
    (h4 : ¬(pyStrip l = "---".data ∨ pyStrip l = "***".data ∨ pyStrip l = "___".data))
    (h5 : headingMatch (pyStrip l) = none)
    (h6 : startsWithL ['>', ' '] (pyStrip l) = false)
    (h7 : startsWithL ['-', ' '] (pyStrip l) = false)
    (h8 : startsWithL ['*', ' '] (pyStrip l) = false)
    (h9 : numMatch (pyStrip l) = none) :
    bbAux (fuel + 1) (l :: rest) =
      Blk.para (parseRichText (joinSp (collectPara [pyStrip l] rest).1))
        :: bbAux fuel (collectPara [pyStrip l] rest).2 := by
  rw [bbAux]
  simp only [if_neg h1, if_neg h2, h3, Bool.false_eq_true, if_false, if_neg h4, h5, h6, h7, h8,
    h9, or_self]

theorem replicateNeNilC (n : Nat) (hn : n ≠ 0) (c : Char) : List.replicate n c ≠ [] := by
  intro he
  have hh := congrArg List.length he
  rw [List.length_replicate, List.length_nil] at hh
  exact hn hh

/-! ## 7. Claim theorems -/

/-- C1: the claim states every rich-text span produced by `build_blocks` has
content of at most 2000 characters, explicitly including the single
rich-text element of a CodeBlock, and that a run of 5000 plain characters
yields spans of 2000/2000/1000.  The paragraph part holds, but the
CodeBlock path of `build_blocks` bypasses `_chunk_text`: a fenced code
block with a 2001-character body yields a single span of length 2001,
violating the stated bound. -/
theorem c1_codeblock_span_exceeds_limit :
    buildBlocks c1CodeInput =
      [Blk.codeBlk [Rich.textSpan (List.replicate 2001 'a') none none] ptLang] ∧
    ((List.replicate 2001 'a').length ≤ 2000 ↔ False) ∧
    buildBlocks c1ParaInput =
      [Blk.para [Rich.textSpan (List.replicate 2000 'a') none none,
                 Rich.textSpan (List.replicate 2000 'a') none none,
                 Rich.textSpan (List.replicate 1000 'a') none none]] := by
  refine ⟨?_, by rw [List.length_replicate]; norm_num, ?_⟩
  · have hsplit : splitNl c1CodeInput = [bt, List.replicate 2001 'a', bt] := by
      unfold c1CodeInput
      rw [splitNlAppendNl bt _ (by decide),
        splitNlAppendNl (List.replicate 2001 'a') _
          (by simp [-List.reduceReplicate, List.mem_replicate]),
        splitNlNoNl bt (by decide)]
    unfold buildBlocks
    rw [hsplit]
    have hlen : lenT [bt, List.replicate 2001 'a', bt] = 2 + 1 := by rw [lenT_eq]; rfl
    rw [hlen]
    have hmid : pyStrip (List.replicate 2001 'a') = List.replicate 2001 'a' :=
      pyStripReplicate 'a' (by decide) 2001
    have hcc : collectCode [] [List.replicate 2001 'a', bt] = ([List.replicate 2001 'a'], []) := by
      rw [collectCode, hmid]
      have hsw : startsWithL bt (List.replicate 2001 'a') = false :=
        startsWithLReplicateNe btChar 'a' [btChar, btChar] (by decide) 2001 (by norm_num)
      rw [hsw]
      simp only [Bool.false_eq_true, if_false, List.nil_append]
      rw [collectCode]
      rw [show pyStrip bt = bt from by decide]
      rw [show startsWithL bt bt = true from by decide]
      simp
    rw [bbAuxCodeFence 2 bt [List.replicate 2001 'a', bt] (by decide) (by decide) (by decide),
      hcc, bbAuxNil]
    rw [show pyStrip ((pyStrip bt).drop 3) = ([] : List Char) from by decide]
    simp [-List.reduceReplicate, enforceLimits, splitIfNeeded, richOf, joinNl, joinWith]
  · have hsplit : splitNl c1ParaInput = [List.replicate 5000 'a'] :=
      splitNlNoNl _ (by
        show '\n' ∉ List.replicate 5000 'a'
        simp [-List.reduceReplicate, List.mem_replicate])
    unfold buildBlocks
    rw [hsplit]
    have hlen : lenT [List.replicate 5000 'a'] = 0 + 1 := by rw [lenT_eq]; rfl
    rw [hlen]
    have hstrip : pyStrip (List.replicate 5000 'a') = List.replicate 5000 'a' :=
      pyStripReplicate 'a' (by decide) 5000
    have hlen_ne : ∀ (xs : List Char), xs.length ≠ 5000 → List.replicate 5000 'a' ≠ xs := by
      intro xs hx he
      exact hx (by rw [← he, List.length_replicate])
    have h1 : pyStrip (List.replicate 5000 'a') ≠ [] := by
      rw [hstrip]
      exact hlen_ne [] (by decide)
    have h2 : pyStrip (List.replicate 5000 'a') ≠ dd := by
      rw [hstrip]; exact hlen_ne dd (by decide)
    have h3 : startsWithL bt (pyStrip (List.replicate 5000 'a')) = false := by
      rw [hstrip]
      exact startsWithLReplicateNe btChar 'a' [btChar, btChar] (by decide) 5000 (by norm_num)
    have h4 : ¬(pyStrip (List.replicate 5000 'a') = "---".data ∨
        pyStrip (List.replicate 5000 'a') = "***".data ∨
        pyStrip (List.replicate 5000 'a') = "___".data) := by
      rw [hstrip]
      simp only [not_or]
      exact ⟨hlen_ne _ (by decide), hlen_ne _ (by decide), hlen_ne _ (by decide)⟩
    have h5 : headingMatch (pyStrip (List.replicate 5000 'a')) = none := by
      rw [hstrip]
      unfold headingMatch
      rw [takeWhileReplicate _ 'a' (by decide) 5000]
      rw [if_neg (by simp)]
    have h6 : startsWithL ['>', ' '] (pyStrip (List.replicate 5000 'a')) = false := by
      rw [hstrip]
      exact startsWithLReplicateNe '>' 'a' [' '] (by decide) 5000 (by norm_num)
    have h7 : startsWithL ['-', ' '] (pyStrip (List.replicate 5000 'a')) = false := by
      rw [hstrip]
      exact startsWithLReplicateNe '-' 'a' [' '] (by decide) 5000 (by norm_num)
    have h8 : startsWithL ['*', ' '] (pyStrip (List.replicate 5000 'a')) = false := by
      rw [hstrip]
      exact startsWithLReplicateNe '*' 'a' [' '] (by decide) 5000 (by norm_num)
    have h9 : numMatch (pyStrip (List.replicate 5000 'a')) = none := by
      rw [hstrip]
      unfold numMatch
      rw [takeWhileReplicate Char.isDigit 'a' (by decide) 5000]
      rw [if_pos rfl]
    rw [bbAuxParaLine 0 (List.replicate 5000 'a') [] h1 h2 h3 h4 h5 h6 h7 h8 h9, hstrip]
    have hcp : collectPara [List.replicate 5000 'a'] ([] : List (List Char)) =
        ([List.replicate 5000 'a'], []) := rfl
    rw [hcp, bbAuxNil]
    have hjs : joinSp [List.replicate 5000 'a'] = List.replicate 5000 'a' := rfl
    rw [hjs, parseRichTextRun 'a' (by decide) (by decide) (by decide) (by decide) 5000
      (by norm_num)]
    have hne2000 : List.replicate 5000 'a' ≠ [] := hlen_ne [] (by decide)
    have step1 : chunkText none 5000 (List.replicate 5000 'a') =
        Rich.textSpan (List.replicate 2000 'a') none none ::
          chunkText none 4999 (List.replicate 3000 'a') := by
      have h := chunkTextCons none 4999 (List.replicate 5000 'a') hne2000
      rw [List.take_replicate, List.drop_replicate,
        show min 2000 5000 = 2000 from by norm_num,
        show 5000 - 2000 = 3000 from by norm_num] at h
      exact h
    have step2 : chunkText none 4999 (List.replicate 3000 'a') =
        Rich.textSpan (List.replicate 2000 'a') none none ::
          chunkText none 4998 (List.replicate 1000 'a') := by
      have h := chunkTextCons none 4998 (List.replicate 3000 'a')
        (replicateNeNilC 3000 (by norm_num) 'a')
      rw [List.take_replicate, List.drop_replicate,
        show min 2000 3000 = 2000 from by norm_num,
        show 3000 - 2000 = 1000 from by norm_num] at h
      exact h
    have step3 : chunkText none 4998 (List.replicate 1000 'a') =
        [Rich.textSpan (List.replicate 1000 'a') none none] := by
      have h := chunkTextCons none 4997 (List.replicate 1000 'a')
        (replicateNeNilC 1000 (by norm_num) 'a')
      rw [List.take_replicate, List.drop_replicate,
        show min 2000 1000 = 1000 from by norm_num,
        show 1000 - 2000 = 0 from by norm_num, List.replicate_zero] at h
      rw [h]
      rfl
    rw [step1, step2, step3]
    simp [-List.reduceReplicate, enforceLimits, splitIfNeeded, richOf]

/-- C2: the inline pass's substitution callback never rewrites a
single-dollar span whose content is a pure numeric/currency pattern (first
character a digit, all characters digits, commas or periods), always
rewrites non-blank non-numeric content such as `x^2` to the canonical
marker, and leaves blank content unchanged; checked end-to-end on a line
holding both a currency span and a formula span. -/
theorem c2_inline_currency_heuristic :
    (∀ content : List Char, numericLike content = true →
      replaceInline content = '$' :: (content ++ ['$'])) ∧
    (∀ content : List Char, pyStrip content = [] →
      replaceInline content = '$' :: (content ++ ['$'])) ∧
    (∀ content : List Char, pyStrip content ≠ [] → numericLike content = false →
      replaceInline content = '$' :: btChar :: (content ++ [btChar, '$'])) ∧
    convertInlineMath ("Pay $3.50$ for $x^2$".data) = ("Pay $3.50$ for $`x^2`$".data) := by
  refine ⟨?_, ?_, ?_, by decide⟩
  · intro content h
    unfold replaceInline
    by_cases hs : pyStrip content = []
    · rw [if_pos hs]
    · rw [if_neg hs, if_pos h]
  · intro content h
    unfold replaceInline
    rw [if_pos h]
  · intro content h1 h2
    unfold replaceInline
    rw [if_neg h1, h2]
    simp

/-- Witness for C2 at concrete contents. -/
theorem c2_witness :
    replaceInline ("3,500.10".data) = '$' :: ("3,500.10".data ++ ['$']) ∧
    replaceInline ("  ".data) = '$' :: ("  ".data ++ ['$']) ∧
    replaceInline ("x^2".data) = '$' :: btChar :: ("x^2".data ++ [btChar, '$']) :=
  ⟨c2_inline_currency_heuristic.1 _ (by decide),
   c2_inline_currency_heuristic.2.1 _ (by decide),
   c2_inline_currency_heuristic.2.2.1 _ (by decide) (by decide)⟩

/-- C4 counterexample: with a failed batch and two units whose single-unit
retries both fail, the trace is three back-to-back network calls with no
pacing sleep between them, refuting the claim that a failed single-unit
append still consumes its pacing delay before the next unit. -/
theorem c4_counterexample :
    appendEvents false (fun _ => false) [Blk.divider, Blk.divider] =
      [Ev.patchBatch 2, Ev.patchUnit 0, Ev.patchUnit 1] ∧
    noAdjacentCalls (appendEvents false (fun _ => false) [Blk.divider, Blk.divider]) = false :=
  ⟨rfl, rfl⟩

theorem noAdjacentCallsSleepCons (m : Nat) (rest : List Ev) :
    noAdjacentCalls (Ev.sleepMs m :: rest) = noAdjacentCalls rest := by
  cases rest with
  | nil => rfl
  | cons b t => rw [noAdjacentCalls]; simp [isCall]

theorem hasAdjPairConsOf (a b x : Ev) (l : List Ev) (h : hasAdjPair a b l = true) :
    hasAdjPair a b (x :: l) = true := by
  cases l with
  | nil =>
    rw [show hasAdjPair a b [] = false from rfl] at h
    exact absurd h (by simp)
  | cons y t =>
    rw [hasAdjPair, h]
    simp

theorem hasAdjPairHead (a b : Ev) (t : List Ev) : hasAdjPair a b (a :: b :: t) = true := by
  rw [hasAdjPair]
  simp

theorem retryUnitsAllOk (u : Nat → Bool) (hu : ∀ i, u i = true) :
    ∀ (bs : List Blk) (j : Nat), noAdjacentCalls (retryUnits u j bs) = true := by
  intro bs
  induction bs with
  | nil => intro j; rfl
  | cons b bs2 ih =>
    intro j
    rw [retryUnits, hu j]
    simp only [if_true, List.cons_append, List.singleton_append, List.nil_append]
    cases bs2 with
    | nil => rfl
    | cons b2 bs3 =>
      rw [noAdjacentCalls]
      simp [isCall, noAdjacentCallsSleepCons, ih (j + 1)]

theorem retryUnitsAdjFail (u : Nat → Bool) :
    ∀ (bs : List Blk) (j i : Nat), u (j + i) = false → i + 1 < bs.length →
      hasAdjPair (Ev.patchUnit (j + i)) (Ev.patchUnit (j + i + 1)) (retryUnits u j bs) = true := by
  intro bs
  induction bs with
  | nil => intro j i _ h; simp at h
  | cons b bs2 ih =>
    intro j i hu hlt
    cases i with
    | zero =>
      simp only [Nat.add_zero] at hu ⊢
      rw [retryUnits, hu]
      simp only [Bool.false_eq_true, if_false, List.cons_append, List.nil_append]
      cases bs2 with
      | nil => simp at hlt
      | cons b2 bs3 =>
        rw [retryUnits]
        simp only [List.cons_append]
        exact hasAdjPairHead _ _ _
    | succ i2 =>
      have hrec := ih (j + 1) i2 (by rw [← hu]; ring_nf) (by simp at hlt; omega)
      have hrw : j + 1 + i2 = j + (i2 + 1) := by omega
      rw [hrw] at hrec
      rw [retryUnits]
      cases hj : u j with
      | false =>
        simp only [Bool.false_eq_true, if_false, List.cons_append, List.nil_append]
        exact hasAdjPairConsOf _ _ _ _ hrec
      | true =>
        simp only [if_true, List.cons_append, List.singleton_append, List.nil_append]
        exact hasAdjPairConsOf _ _ _ _ (hasAdjPairConsOf _ _ _ _ hrec)

/-- C4 amended: in the single-unit retry loop the pacing sleep follows only
successful unit appends — when every unit call succeeds no two network
calls are adjacent in the retry trace, but a failed unit append is followed
immediately by the next unit's call with no sleep in between. -/
theorem c4_pacing_only_after_success :
    (∀ (bs : List Blk) (u : Nat → Bool), (∀ i, u i = true) →
      noAdjacentCalls (retryUnits u 0 bs) = true) ∧
    (∀ (bs : List Blk) (u : Nat → Bool) (i : Nat), u i = false → i + 1 < bs.length →
      hasAdjPair (Ev.patchUnit i) (Ev.patchUnit (i + 1)) (appendEvents false u bs) = true) := by
  constructor
  · intro bs u hu
    exact retryUnitsAllOk u hu bs 0
  · intro bs u i hu hlt
    rw [appendEvents]
    simp only [Bool.false_eq_true, if_false]
    refine hasAdjPairConsOf _ _ _ _ ?_
    have := retryUnitsAdjFail u bs 0 i (by simpa using hu) (by omega)
    simpa using this

/-- Witness for the amended C4 at concrete traces. -/
theorem c4_amended_witness :
    noAdjacentCalls (retryUnits (fun _ => true) 0 [Blk.divider, Blk.divider]) = true ∧
    hasAdjPair (Ev.patchUnit 0) (Ev.patchUnit 1)
      (appendEvents false (fun _ => false) [Blk.divider, Blk.divider]) = true :=
  ⟨c4_pacing_only_after_success.1 _ _ (fun _ => rfl),
   c4_pacing_only_after_success.2 _ _ 0 rfl (by norm_num)⟩

/-- The semantic tag of a block (one value per Python block `type`). -/
def tagOf : Blk → Nat
  | Blk.para _ => 0
  | Blk.heading _ _ => 1
  | Blk.bullet _ => 2
  | Blk.numbered _ => 3
  | Blk.quoteB _ => 4
  | Blk.codeBlk _ _ => 5
  | Blk.eqBlk _ => 6
  | Blk.divider => 7

/-- The code-block language attribute, when present. -/
def langOf : Blk → Option (List Char)
  | Blk.codeBlk _ lang => some lang
  | _ => none

/-- The heading level attribute, when present. -/
def levelOf : Blk → Option Nat
  | Blk.heading level _ => some level
  | _ => none

theorem tagOfSetRich (b : Blk) (rt : List Rich) : tagOf (setRich b rt) = tagOf b := by
  cases b <;> rfl

theorem langOfSetRich (b : Blk) (rt : List Rich) : langOf (setRich b rt) = langOf b := by
  cases b <;> rfl

theorem levelOfSetRich (b : Blk) (rt : List Rich) : levelOf (setRich b rt) = levelOf b := by
  cases b <;> rfl

theorem richOfSetRich (b : Blk) (rt0 rt : List Rich) (h : richOf b = some rt0) :
    richOf (setRich b rt) = some rt := by
  cases b <;> first | rfl | exact absurd h (by simp [richOf])

theorem chunksAuxCons {α : Type} (f : Nat) (a : α) (t : List α) :
    chunksAux (f + 1) (a :: t) = (a :: t).take 100 :: chunksAux f ((a :: t).drop 100) := by
  rw [chunksAux]
  exact fun h => absurd h (by simp)

theorem chunksAuxFlatten {α : Type} : ∀ (fuel : Nat) (l : List α), l.length ≤ fuel →
    (chunksAux fuel l).flatten = l := by
  intro fuel
  induction fuel with
  | zero =>
    intro l hl
    have : l = [] := List.length_eq_zero.mp (by omega)
    subst this
    rfl
  | succ f ih =>
    intro l hl
    cases l with
    | nil => rfl
    | cons a t =>
      rw [chunksAuxCons]
      rw [List.flatten_cons, ih _ (by rw [List.length_drop]; simp only [List.length_cons] at hl ⊢; omega)]
      exact List.take_append_drop 100 (a :: t)

theorem chunksAuxMemLe {α : Type} : ∀ (fuel : Nat) (l : List α), l.length ≤ fuel →
    ∀ c ∈ chunksAux fuel l, c.length ≤ 100 := by
  intro fuel
  induction fuel with
  | zero =>
    intro l hl c hc
    have : l = [] := List.length_eq_zero.mp (by omega)
    subst this
    simp [chunksAux] at hc
  | succ f ih =>
    intro l hl c hc
    cases l with
    | nil => simp [chunksAux] at hc
    | cons a t =>
      rw [chunksAuxCons] at hc
      rcases List.mem_cons.mp hc with h | h
      · subst h
        simp [List.length_take]
      · exact ih _ (by rw [List.length_drop]; simp only [List.length_cons] at hl ⊢; omega) c h

theorem chunksAuxLen {α : Type} : ∀ (fuel : Nat) (l : List α), l.length ≤ fuel → l ≠ [] →
    (chunksAux fuel l).length = (l.length + 99) / 100 := by
  intro fuel
  induction fuel with
  | zero =>
    intro l hl hne
    exact absurd (List.length_eq_zero.mp (by omega)) hne
  | succ f ih =>
    intro l hl hne
    cases l with
    | nil => exact absurd rfl hne
    | cons a t =>
      rw [chunksAuxCons]
      by_cases hbig : (a :: t).length ≤ 100
      · have hdrop : (a :: t).drop 100 = [] := List.drop_eq_nil_of_le hbig
        rw [hdrop]
        rw [show chunksAux f ([] : List α) = [] from by cases f <;> rfl]
        simp at hbig ⊢
        omega
      · push_neg at hbig
        have hdlen : ((a :: t).drop 100).length = (a :: t).length - 100 := List.length_drop _ _
        have hdne : (a :: t).drop 100 ≠ [] := by
          intro he
          have h0 := congrArg List.length he
          rw [List.length_drop, List.length_nil] at h0
          omega
        rw [List.length_cons, ih _ (by rw [List.length_drop]; simp only [List.length_cons] at hl ⊢; omega) hdne, hdlen]
        simp
        omega

theorem chunks100Flatten {α : Type} (l : List α) : (chunks100 l).flatten = l := by
  rw [chunks100, lenT_eq]
  exact chunksAuxFlatten l.length l (le_refl _)

theorem chunks100MemLe {α : Type} (l : List α) : ∀ c ∈ chunks100 l, c.length ≤ 100 := by
  rw [chunks100, lenT_eq]
  exact chunksAuxMemLe l.length l (le_refl _)

theorem chunks100Len {α : Type} (l : List α) (h : l ≠ []) :
    (chunks100 l).length = (l.length + 99) / 100 := by
  rw [chunks100, lenT_eq]
  exact chunksAuxLen l.length l (le_refl _) h

theorem splitIfNeededSmall (b : Blk) (h : ∀ rt, richOf b = some rt → rt.length ≤ 100) :
    splitIfNeeded b = [b] := by
  unfold splitIfNeeded
  cases hr : richOf b with
  | none => rfl
  | some rt =>
    simp only [hr]
    rw [if_pos (Or.inr (h rt hr))]

theorem flattenMapSingleton {α : Type} (f : α → List α) :
    ∀ l : List α, (∀ x ∈ l, f x = [x]) → (l.map f).flatten = l := by
  intro l
  induction l with
  | nil => intro _; rfl
  | cons a t ih =>
    intro h
    rw [List.map_cons, List.flatten_cons, h a (by simp), ih (fun x hx => h x (by simp [hx]))]
    rfl

theorem enforceMemBound (us : List Blk) :
    ∀ b ∈ enforceLimits us, ∀ rt, richOf b = some rt → rt.length ≤ 100 := by
  intro b hb rt hrt
  unfold enforceLimits at hb
  rw [List.mem_flatten] at hb
  obtain ⟨lb, hlb, hbin⟩ := hb
  rw [List.mem_map] at hlb
  obtain ⟨b0, _, hsplit⟩ := hlb
  subst hsplit
  unfold splitIfNeeded at hbin
  cases hr : richOf b0 with
  | none =>
    simp only [hr] at hbin
    simp at hbin
    subst hbin
    rw [hr] at hrt
    exact absurd hrt (by simp)
  | some rt0 =>
    simp only [hr] at hbin
    by_cases hsmall : rt0 = [] ∨ rt0.length ≤ 100
    · rw [if_pos hsmall] at hbin
      simp at hbin
      subst hbin
      rw [hr] at hrt
      injection hrt with he
      subst he
      rcases hsmall with he | hle
      · simp [he]
      · exact hle
    · rw [if_neg hsmall] at hbin
      rw [List.mem_map] at hbin
      obtain ⟨c, hc, hbc⟩ := hbin
      subst hbc
      rw [richOfSetRich b0 rt0 c hr] at hrt
      injection hrt with he
      subst he
      exact chunks100MemLe rt0 _ hc

/-- C6: one application of the size enforcer is idempotent, leaves every
block's span list at no more than 100 elements, preserves order (the
result is the in-order concatenation of each block's split), splits an
oversized block into `⌈count/100⌉` clones of the same tag carrying
contiguous slices whose concatenation is the original span list, with code
language and heading level copied onto every clone, and passes through
every block already within limits (or without a span list) unchanged. -/
theorem c6_enforce_idempotent :
    ∀ us : List Blk,
      enforceLimits (enforceLimits us) = enforceLimits us ∧
      (∀ b ∈ enforceLimits us, ∀ rt, richOf b = some rt → rt.length ≤ 100) ∧
      enforceLimits us = (us.map splitIfNeeded).flatten ∧
      (∀ b ∈ us, ∀ rt, richOf b = some rt → 100 < rt.length →
        splitIfNeeded b = (chunks100 rt).map (setRich b) ∧
        (chunks100 rt).length = (rt.length + 99) / 100 ∧
        (chunks100 rt).flatten = rt ∧
        (∀ c ∈ chunks100 rt, c.length ≤ 100) ∧
        (∀ b2 ∈ splitIfNeeded b, tagOf b2 = tagOf b ∧ langOf b2 = langOf b ∧
          levelOf b2 = levelOf b)) ∧
      (∀ b ∈ us, ∀ rt, richOf b = some rt → rt.length ≤ 100 → splitIfNeeded b = [b]) ∧
      (∀ b ∈ us, richOf b = none → splitIfNeeded b = [b]) := by
  intro us
  refine ⟨?_, enforceMemBound us, rfl, ?_, ?_, ?_⟩
  · unfold enforceLimits
    apply flattenMapSingleton
    intro b hb
    exact splitIfNeededSmall b (enforceMemBound us b hb)
  · intro b _ rt hrt hbig
    have hne : rt ≠ [] := by
      intro he
      rw [he] at hbig
      simp at hbig
    have hsplit : splitIfNeeded b = (chunks100 rt).map (setRich b) := by
      unfold splitIfNeeded
      simp only [hrt]
      rw [if_neg (by push_neg; exact ⟨hne, by omega⟩)]
    refine ⟨hsplit, chunks100Len rt hne, chunks100Flatten rt, chunks100MemLe rt, ?_⟩
    intro b2 hb2
    rw [hsplit, List.mem_map] at hb2
    obtain ⟨c, _, hbc⟩ := hb2
    subst hbc
    exact ⟨tagOfSetRich b c, langOfSetRich b c, levelOfSetRich b c⟩
  · intro b _ rt hrt hle
    unfold splitIfNeeded
    simp only [hrt]
    rw [if_pos (Or.inr hle)]
  · intro b _ hr
    unfold splitIfNeeded
    simp only [hr]

/-- Witness for C6 at a concrete block list containing an in-limit block,
a span-free block, and an oversized block of 101 spans. -/
theorem c6_witness :
    enforceLimits (enforceLimits [Blk.divider, Blk.para [Rich.eqSpan []],
        Blk.codeBlk (List.replicate 101 (Rich.eqSpan [])) ptLang]) =
      enforceLimits [Blk.divider, Blk.para [Rich.eqSpan []],
        Blk.codeBlk (List.replicate 101 (Rich.eqSpan [])) ptLang] ∧
    splitIfNeeded (Blk.codeBlk (List.replicate 101 (Rich.eqSpan [])) ptLang) =
      (chunks100 (List.replicate 101 (Rich.eqSpan []))).map
        (setRich (Blk.codeBlk (List.replicate 101 (Rich.eqSpan [])) ptLang)) ∧
    (chunks100 (List.replicate 101 (Rich.eqSpan []))).length = (101 + 99) / 100 ∧
    splitIfNeeded (Blk.para [Rich.eqSpan []]) = [Blk.para [Rich.eqSpan []]] ∧
    splitIfNeeded Blk.divider = [Blk.divider] := by
  have h := c6_enforce_idempotent [Blk.divider, Blk.para [Rich.eqSpan []],
    Blk.codeBlk (List.replicate 101 (Rich.eqSpan [])) ptLang]
  have hbig := h.2.2.2.1 (Blk.codeBlk (List.replicate 101 (Rich.eqSpan [])) ptLang)
    (by simp) (List.replicate 101 (Rich.eqSpan [])) rfl
    (by rw [List.length_replicate]; norm_num)
  refine ⟨h.1, hbig.1, ?_, ?_, ?_⟩
  · rw [hbig.2.1, List.length_replicate]
  · exact h.2.2.2.2.1 (Blk.para [Rich.eqSpan []]) (by simp) [Rich.eqSpan []] rfl (by simp)
  · exact h.2.2.2.2.2 Blk.divider (by simp) rfl

theorem appendLoopAuxCons (f : Nat) (b : Blk) (t : List Blk) :
    appendLoopAux (f + 1) (b :: t) =
      PEv.appendBatch ((b :: t).take 100) :: PEv.sleepMs 350 ::
        appendLoopAux f ((b :: t).drop 100) := by
  rw [appendLoopAux]
  exact fun h => absurd h (by simp)

theorem appendLoopAuxBatches : ∀ (fuel : Nat) (bs : List Blk),
    batchesOf (appendLoopAux fuel bs) = chunksAux fuel bs := by
  intro fuel
  induction fuel with
  | zero =>
    intro bs
    cases bs with
    | nil => rfl
    | cons b t => rfl
  | succ f ih =>
    intro bs
    cases bs with
    | nil => rfl
    | cons b t =>
      rw [appendLoopAuxCons, chunksAuxCons]
      show batchesOf (PEv.appendBatch ((b :: t).take 100) :: PEv.sleepMs 350 ::
        appendLoopAux f ((b :: t).drop 100)) = _
      rw [show ∀ x r, batchesOf (PEv.appendBatch x :: PEv.sleepMs 350 :: r) =
          x :: batchesOf r from fun x r => rfl]
      rw [ih ((b :: t).drop 100)]

theorem batchesOfAppendLoop (bs : List Blk) : batchesOf (appendLoop bs) = chunks100 bs := by
  rw [appendLoop, chunks100]
  exact appendLoopAuxBatches (lenT bs) bs

/-- C9: when creation with the first 100 units fails and the empty-document
creation also fails, the result is `none` with no append ever attempted;
when the empty-document retry succeeds, all units (not just those past the
first batch) are appended, in batches of at most 100 whose concatenation
is the full unit list. -/
theorem c9_creation_fallback (blocks : List Blk) :
    (createPage false false blocks =
       (none, [PEv.createCall (blocks.take 100), PEv.createCall []]) ∧
     ∀ b : List Blk, PEv.appendBatch b ∉ (createPage false false blocks).2) ∧
    ((createPage false true blocks).1 = some () ∧
     batchesOf (createPage false true blocks).2 = chunks100 blocks ∧
     (chunks100 blocks).flatten = blocks) := by
  refine ⟨⟨rfl, ?_⟩, rfl, ?_, chunks100Flatten blocks⟩
  · intro b hb
    simp [createPage] at hb
  · show batchesOf (PEv.createCall (blocks.take 100) :: PEv.createCall [] ::
      appendLoop blocks) = _
    rw [show ∀ x r, batchesOf (PEv.createCall x :: PEv.createCall [] :: r) =
        batchesOf r from fun x r => rfl]
    exact batchesOfAppendLoop blocks

/-- Witness for C9 at a concrete block list. -/
theorem c9_witness :
    (createPage false false [Blk.divider]).1 = none ∧
    PEv.appendBatch [Blk.divider] ∉ (createPage false false [Blk.divider]).2 ∧
    batchesOf (createPage false true [Blk.divider]).2 = chunks100 [Blk.divider] := by
  refine ⟨?_, (c9_creation_fallback [Blk.divider]).1.2 [Blk.divider],
    (c9_creation_fallback [Blk.divider]).2.2.1⟩
  rw [(c9_creation_fallback [Blk.divider]).1.1]

theorem collectCodeAll : ∀ (rest acc : List (List Char)),
    (∀ l ∈ rest, startsWithL bt (pyStrip l) = false) →
    collectCode acc rest = (acc ++ rest, []) := by
  intro rest
  induction rest with
  | nil => intro acc _; simp [collectCode]
  | cons l r ih =>
    intro acc h
    rw [collectCode, h l (by simp)]
    simp only [Bool.false_eq_true, if_false]
    rw [ih (acc ++ [l]) (fun x hx => h x (by simp [hx]))]
    simp

/-- C10: a fenced code block that is never closed absorbs every remaining
line of the input verbatim (no safety bound) and still yields a single
CodeBlock whose text is those lines joined by newlines, with the language
from the opening fence defaulting to `"plain text"`; it does not degrade
to a Paragraph. -/
theorem c10_unterminated_code_fence (fuel : Nat) (lang : List Char) (rest : List (List Char))
    (hlang : pyStrip lang = lang)
    (hrest : ∀ l ∈ rest, startsWithL bt (pyStrip l) = false) :
    bbAux (fuel + 1) ((bt ++ lang) :: rest) =
      [Blk.codeBlk [Rich.textSpan (joinNl rest) none none]
        (if lang = [] then ptLang else lang)] := by
  have hstrip : pyStrip (bt ++ lang) = bt ++ lang := by
    apply pyStripEqSelfOf
    · intro c hc
      rw [show (bt ++ lang).head? = some btChar from by simp [bt]] at hc
      injection hc with he
      subst he
      decide
    · intro c hc
      cases hl : lang with
      | nil =>
        rw [hl] at hc
        rw [show ((bt ++ [] : List Char)).getLast? = some btChar from by simp [bt]] at hc
        injection hc with he
        subst he
        decide
      | cons d ds =>
        rw [hl, List.getLast?_append_of_ne_nil _ (by simp)] at hc
        rw [← hl] at hc
        exact pyStripLastFact lang hlang c hc
  have h2 : pyStrip (bt ++ lang) ≠ dd := by
    rw [hstrip]
    intro he
    have hh : (bt ++ lang).head? = dd.head? := by rw [he]
    rw [show (bt ++ lang).head? = some btChar from by simp [bt],
      show dd.head? = some '$' from rfl] at hh
    injection hh with hc
    exact absurd hc (by decide)
  have h1 : pyStrip (bt ++ lang) ≠ [] := by
    rw [hstrip]
    simp [bt]
  have h3 : startsWithL bt (pyStrip (bt ++ lang)) = true := by
    rw [hstrip]
    exact startsWithLSelf bt lang
  rw [bbAuxCodeFence fuel (bt ++ lang) rest h1 h2 h3, collectCodeAll rest [] hrest, bbAuxNil]
  rw [hstrip, show (bt ++ lang).drop 3 = lang from by simp [bt], hlang]
  simp

/-- Witness for C10: an unclosed fence followed by 55 lines (past the
math path's 50-line bound) still becomes one CodeBlock. -/
theorem c10_witness :
    bbAux (0 + 1) ((bt ++ []) :: List.replicate 55 ['x']) =
      [Blk.codeBlk [Rich.textSpan (joinNl (List.replicate 55 ['x'])) none none]
        (if ([] : List Char) = [] then ptLang else [])] :=
  c10_unterminated_code_fence 0 [] (List.replicate 55 ['x']) (by decide)
    (fun l hl => by rw [List.eq_of_mem_replicate hl]; decide)

theorem collectMath50NoClose : ∀ (rest acc : List (List Char)),
    acc.length ≤ 50 →
    (∀ l ∈ rest.take (50 - acc.length), pyStrip l ≠ dd) →
    collectMath50 acc rest =
      (false, acc ++ rest.take (50 - acc.length), rest.drop (50 - acc.length)) := by
  intro rest
  induction rest with
  | nil => intro acc _ _; simp [collectMath50]
  | cons l r ih =>
    intro acc hle h
    by_cases hfull : acc.length = 50
    · rw [collectMath50, if_pos (by omega)]
      rw [hfull]
      simp
    · have hlt : acc.length < 50 := by omega
      have harith : 50 - acc.length = (50 - (acc.length + 1)) + 1 := by omega
      rw [harith] at h ⊢
      rw [List.take_succ_cons] at h ⊢
      rw [List.drop_succ_cons]
      have hlen : (acc ++ [l]).length = acc.length + 1 := by simp
      have ih2 := ih (acc ++ [l]) (by rw [hlen]; omega)
        (by rw [hlen]; intro x hx; exact h x (List.mem_cons_of_mem _ hx))
      rw [hlen] at ih2
      rw [collectMath50, if_neg (by omega), if_neg (h l (by simp)), ih2]
      simp [List.append_assoc]

theorem collectMath50Close : ∀ (pre acc : List (List Char)) (lc : List Char)
    (post : List (List Char)),
    acc.length + pre.length ≤ 49 →
    (∀ l ∈ pre, pyStrip l ≠ dd) →
    pyStrip lc = dd →
    collectMath50 acc (pre ++ lc :: post) = (true, acc ++ pre, post) := by
  intro pre
  induction pre with
  | nil =>
    intro acc lc post hle _ hlc
    rw [List.nil_append, collectMath50, if_neg (by simp at hle; omega), if_pos hlc]
    simp
  | cons p pre2 ih =>
    intro acc lc post hle hpre hlc
    rw [List.cons_append, collectMath50, if_neg (by simp at hle; omega),
      if_neg (hpre p (by simp))]
    have hlen : (acc ++ [p]).length = acc.length + 1 := by simp
    have ih2 := ih (acc ++ [p]) lc post
      (by rw [hlen]; simp at hle; omega)
      (fun x hx => hpre x (List.mem_cons_of_mem _ hx)) hlc
    rw [ih2]
    simp [List.append_assoc]

/-- C8: when the segmenter sees a `$$` line, a closing `$$` line located
within the 50-collected-line bound yields an `Equation` whose expression
is the collected lines joined and trimmed, and the continuation resumes
after the closing line; with no closing line among the first 50 collected
lines (or to the end of input) it emits a `Paragraph` built from the
leading `$$` marker restored in front of the collected text joined by
spaces, dropping none of the collected lines, and resumes after them. -/
theorem c8_math_collection (fuel : Nat) (l : List Char) (hline : pyStrip l = dd) :
    (∀ (pre post : List (List Char)) (lc : List Char),
      pre.length ≤ 49 → (∀ x ∈ pre, pyStrip x ≠ dd) → pyStrip lc = dd →
      bbAux (fuel + 1) (l :: (pre ++ lc :: post)) =
        Blk.eqBlk (pyStrip (joinNl pre)) :: bbAux fuel post) ∧
    (∀ rest : List (List Char),
      (∀ x ∈ rest.take 50, pyStrip x ≠ dd) →
      bbAux (fuel + 1) (l :: rest) =
        Blk.para (parseRichText (dd ++ joinSp (rest.take 50))) ::
          bbAux fuel (rest.drop 50)) := by
  constructor
  · intro pre post lc hlen hpre hlc
    have hc := collectMath50Close pre [] lc post (by simp; omega) hpre hlc
    rw [List.nil_append] at hc
    exact bbAuxMathFound fuel l _ pre post hline hc
  · intro rest hrest
    have hc := collectMath50NoClose rest [] (by simp) (by simp; exact hrest)
    rw [List.nil_append] at hc
    simp only [List.length_nil, Nat.sub_zero] at hc
    exact bbAuxMathLost fuel l rest _ _ hline hc

/-- Witness for C8 at concrete line lists. -/
theorem c8_witness :
    bbAux (0 + 1) (['$', '$'] :: ([['x']] ++ ['$', '$'] :: [])) =
      Blk.eqBlk (pyStrip (joinNl [['x']])) :: bbAux 0 [] ∧
    bbAux (0 + 1) (['$', '$'] :: [['x']]) =
      Blk.para (parseRichText (dd ++ joinSp ([['x']].take 50))) ::
        bbAux 0 ([['x']].drop 50) :=
  ⟨(c8_math_collection 0 ['$', '$'] (by decide)).1 [['x']] [] ['$', '$'] (by norm_num)
      (by intro x hx; simp at hx; subst hx; decide) (by decide),
   (c8_math_collection 0 ['$', '$'] (by decide)).2 [['x']]
      (by intro x hx; simp at hx; subst hx; decide)⟩

theorem endsWithLddDD : endsWithL dd dd = true := by decide

theorem cbmAuxNil (fuel : Nat) : cbmAux fuel [] = [] := by
  cases fuel with
  | zero => rfl
  | succ f => rfl

theorem cbmAuxId : ∀ (ls : List (List Char)) (fuel : Nat),
    (∀ l ∈ ls, startsWithL dd (pyStrip l) = false) → cbmAux fuel ls = ls := by
  intro ls
  induction ls with
  | nil => intro fuel _; exact cbmAuxNil fuel
  | cons l r ih =>
    intro fuel h
    cases fuel with
    | zero => rfl
    | succ f =>
      rw [cbmAux]
      simp only [h l (by simp), Bool.false_eq_true, if_false]
      rw [ih f (fun x hx => h x (by simp [hx]))]

theorem collectMathNoClose : ∀ (rest acc : List (List Char)),
    acc.length ≤ 31 →
    (∀ l ∈ rest.take (32 - acc.length), endsWithL dd (pyStrip l) = false) →
    collectMath acc rest =
      (false, acc ++ rest.take (31 - acc.length), rest.drop (31 - acc.length)) := by
  intro rest
  induction rest with
  | nil => intro acc _ _; simp [collectMath]
  | cons l r ih =>
    intro acc hle h
    have hl : endsWithL dd (pyStrip l) = false := by
      refine h l ?_
      have : 1 ≤ 32 - acc.length := by omega
      rcases Nat.exists_eq_add_of_le this with ⟨k, hk⟩
      rw [hk, Nat.add_comm, List.take_succ_cons]
      simp
    have hldd : pyStrip l ≠ dd := by
      intro he
      rw [he, endsWithLddDD] at hl
      exact absurd hl (by simp)
    by_cases hfull : acc.length = 31
    · rw [collectMath, if_neg hldd, if_neg (by rw [hl]; simp), if_pos (by omega)]
      rw [hfull]
      simp
    · have hlt : acc.length < 31 := by omega
      have harith : 31 - acc.length = (31 - (acc.length + 1)) + 1 := by omega
      have harith2 : 32 - acc.length = (32 - (acc.length + 1)) + 1 := by omega
      rw [harith] 
      rw [List.take_succ_cons, List.drop_succ_cons]
      have hlen : (acc ++ [l]).length = acc.length + 1 := by simp
      have ih2 := ih (acc ++ [l]) (by rw [hlen]; omega)
        (by
          rw [hlen]
          intro x hx
          refine h x ?_
          rw [harith2, List.take_succ_cons]
          exact List.mem_cons_of_mem _ hx)
      rw [hlen] at ih2
      rw [collectMath, if_neg hldd, if_neg (by rw [hl]; simp), if_neg (by omega), ih2]
      simp [List.append_assoc]

/-- C3 counterexample: an opening line `$$x` (content after the marker)
with no closing marker within the safety bound is not emitted unchanged:
the stripped content `x` is re-emitted as an extra line after the original
line, duplicating it, so the block pass output differs from its input. -/
theorem c3_counterexample : convertBlockMath c3Input ≠ c3Input := by decide

/-- C3 amended: on the 30-collected-line safety-bound path the block pass
emits the input unchanged only when the opening line is exactly the `$$`
marker; when the opening line carries content after the marker (`$$x`),
the original line is emitted followed by the stripped content again as an
extra line, duplicating that content. -/
theorem c3_amended : ∀ (rest : List (List Char)) (fuel : Nat),
    (∀ l ∈ rest, endsWithL dd (pyStrip l) = false ∧ startsWithL dd (pyStrip l) = false) →
    cbmAux (fuel + 1) (dd :: rest) = dd :: rest ∧
    cbmAux (fuel + 1) ("$$x".data :: rest) = "$$x".data :: "x".data :: rest := by
  intro rest fuel h
  have hend : ∀ l ∈ rest, endsWithL dd (pyStrip l) = false := fun l hl => (h l hl).1
  have hstart : ∀ l ∈ rest, startsWithL dd (pyStrip l) = false := fun l hl => (h l hl).2
  constructor
  · have hcol := collectMathNoClose rest [] (by simp)
      (by simp only [List.length_nil, Nat.sub_zero]
          intro x hx
          exact hend x (List.take_subset 32 rest hx))
    simp only [List.length_nil, Nat.sub_zero, List.nil_append] at hcol
    rw [cbmAux]
    rw [show pyStrip dd = dd from by decide]
    rw [if_pos (by decide)]
    rw [show pyStrip (List.drop 2 dd) = ([] : List Char) from by decide]
    simp only [ne_eq, not_true_eq_false, false_and, if_false, hcol]
    rw [cbmAuxId _ fuel (fun x hx => hstart x (List.drop_subset 31 rest hx))]
    simp
  · have hcol := collectMathNoClose rest [['x']] (by simp)
      (by simp only [List.length_cons, List.length_nil]
          intro x hx
          exact hend x (List.take_subset _ rest hx))
    simp only [List.length_cons, List.length_nil] at hcol
    rw [cbmAux]
    rw [show pyStrip ("$$x".data) = "$$x".data from by decide]
    rw [if_pos (by decide)]
    rw [show pyStrip (List.drop 2 ("$$x".data)) = ['x'] from by decide]
    rw [if_neg (by decide)]
    simp only [show (if (['x'] : List Char) ≠ [] then [['x']] else []) = [['x']] from by decide,
      hcol]
    rw [if_neg (by simp)]
    rw [cbmAuxId _ fuel (fun x hx => hstart x (List.drop_subset (31 - (0 + 1)) rest hx))]
    simp [List.append_assoc, List.take_append_drop]

/-- Witness for the amended C3 at a concrete 40-line tail. -/
theorem c3_amended_witness :
    cbmAux (0 + 1) (dd :: List.replicate 40 ['a']) = dd :: List.replicate 40 ['a'] ∧
    cbmAux (0 + 1) ("$$x".data :: List.replicate 40 ['a']) =
      "$$x".data :: "x".data :: List.replicate 40 ['a'] :=
  c3_amended (List.replicate 40 ['a']) 0
    (fun l hl => by rw [List.eq_of_mem_replicate hl]; exact ⟨by decide, by decide⟩)

theorem headAppendOf (l1 l2 : List Char) (c : Char) (h : l1.head? = some c) :
    (l1 ++ l2).head? = some c := by
  cases l1 with
  | nil => simp at h
  | cons a t => simpa using h

theorem collectMathSingleClose (f : List Char) (hf : pyStrip f = f)
    (hfe : endsWithL dd f = false) :
    collectMath [] [f, dd] = (true, [f], []) := by
  rw [collectMath]
  simp only [hf]
  rw [if_neg (fun he => by rw [he, endsWithLddDD] at hfe; exact absurd hfe (by simp)),
    if_neg (by rw [hfe]; simp), if_neg (by simp)]
  rw [collectMath]
  rw [show pyStrip dd = dd from by decide]
  rw [if_pos rfl]
  simp

/-- C7: for a trimmed, nonempty, single-line formula body not ending in the
marker, all five documented block-math spellings are rewritten by the block
pass to the same canonical 5-line sequence: blank, `$$`, formula, `$$`,
blank (the multi-line spelling with leading content producing the two-line
body joined by a newline). -/
theorem c7_five_spellings (f f1 f2 : List Char)
    (hf : pyStrip f = f) (hfne : f ≠ []) (hfe : endsWithL dd f = false)
    (hf1 : pyStrip f1 = f1) (hf1ne : f1 ≠ []) (hf1e : endsWithL dd f1 = false)
    (hf2 : pyStrip f2 = f2) (hf2ne : f2 ≠ []) (hf2e : endsWithL dd f2 = false) :
    cbmAux 1 [dd ++ f ++ dd] = [[], dd, f, dd, []] ∧
    cbmAux 3 [dd, f, dd] = [[], dd, f, dd, []] ∧
    cbmAux 2 [dd ++ f, dd] = [[], dd, f, dd, []] ∧
    cbmAux 2 [dd, f ++ dd] = [[], dd, f, dd, []] ∧
    cbmAux 3 [dd ++ f1, f2, dd] = [[], dd, f1 ++ '\n' :: f2, dd, []] := by
  obtain ⟨hfh, hfl⟩ := And.intro (pyStripHeadFact f hf) (pyStripLastFact f hf)
  obtain ⟨hc, ft, hft⟩ : ∃ c t, f = c :: t := by
    cases f with
    | nil => exact absurd rfl hfne
    | cons c t => exact ⟨c, t, rfl⟩
  have hfhead : f.head? = some hc := by rw [hft]; rfl
  have hstripfdd : pyStrip (f ++ dd) = f ++ dd := by
    apply pyStripEqSelfOf
    · intro c hcc
      rw [headAppendOf f dd hc hfhead] at hcc
      injection hcc with he
      subst he
      exact hfh hc hfhead
    · intro c hcc
      rw [List.getLast?_append_of_ne_nil _ (by simp [dd]),
        show dd.getLast? = some '$' from by decide] at hcc
      injection hcc with he
      subst he
      decide
  have hfddne : f ++ dd ≠ dd := by
    intro he
    have := congrArg List.length he
    simp [dd] at this
    exact absurd this hfne
  have hfddlen : (f ++ dd).length > 2 := by
    simp [dd]
    cases f with
    | nil => exact absurd rfl hfne
    | cons a t => simp
  have hdropf : pyStrip (dropEnd 2 (f ++ dd)) = f := by
    rw [dropEnd, show (f ++ dd).length - 2 = f.length from by simp [dd],
      List.take_left, hf]
  refine ⟨?_, ?_, ?_, ?_, ?_⟩
  · -- spelling 1: $$f$$ on one line
    rw [cbmAux]
    rw [show pyStrip (dd ++ f ++ dd) = dd ++ f ++ dd from by
      apply pyStripEqSelfOf
      · intro c hcc
        rw [show ((dd ++ f ++ dd)).head? = some '$' from by simp [dd]] at hcc
        injection hcc with he
        subst he
        decide
      · intro c hcc
        rw [List.getLast?_append_of_ne_nil _ (by simp [dd]),
          show dd.getLast? = some '$' from by decide] at hcc
        injection hcc with he
        subst he
        decide]
    rw [show startsWithL dd (dd ++ f ++ dd) = true from by
      rw [List.append_assoc]; exact startsWithLSelf dd (f ++ dd)]
    rw [if_pos rfl]
    rw [show (dd ++ f ++ dd).drop 2 = f ++ dd from by simp [dd]]
    rw [hstripfdd]
    rw [if_pos ⟨by simp [dd], endsWithLAppend f⟩]
    rw [hdropf, cbmAuxNil]
  · -- spelling 2: $$ / f / $$
    rw [cbmAux]
    rw [show pyStrip dd = dd from by decide, if_pos (by decide),
      show pyStrip (List.drop 2 dd) = ([] : List Char) from by decide]
    simp only [ne_eq, not_true_eq_false, false_and, if_false,
      collectMathSingleClose f hf hfe]
    rw [if_pos ⟨by trivial, by simp⟩]
    rw [show joinNl [f] = f from rfl, hf, cbmAuxNil]
  · -- spelling 3: $$f / $$
    rw [cbmAux]
    rw [show pyStrip (dd ++ f) = dd ++ f from by
      apply pyStripEqSelfOf
      · intro c hcc
        rw [show ((dd ++ f)).head? = some '$' from by simp [dd]] at hcc
        injection hcc with he
        subst he
        decide
      · intro c hcc
        rw [List.getLast?_append_of_ne_nil _ hfne] at hcc
        exact hfl c hcc]
    rw [show startsWithL dd (dd ++ f) = true from startsWithLSelf dd f]
    rw [if_pos rfl]
    rw [show (dd ++ f).drop 2 = f from by simp [dd], hf]
    rw [if_neg (by rw [hfe]; simp)]
    rw [show (if f ≠ [] then [f] else []) = [f] from by simp [hfne]]
    have hcol : collectMath [f] [dd] = (true, [f], []) := by
      rw [collectMath]
      rw [show pyStrip dd = dd from by decide, if_pos rfl]
    rw [hcol]
    rw [if_pos ⟨by trivial, by simp⟩]
    rw [show joinNl [f] = f from rfl, hf, cbmAuxNil]
  · -- spelling 4: $$ / f$$
    rw [cbmAux]
    rw [show pyStrip dd = dd from by decide, if_pos (by decide),
      show pyStrip (List.drop 2 dd) = ([] : List Char) from by decide]
    have hcol : collectMath [] [f ++ dd] = (true, [f], []) := by
      rw [collectMath]
      simp only [hstripfdd]
      rw [if_neg hfddne, if_pos ⟨endsWithLAppend f, hfddlen⟩, hdropf]
      simp
    simp only [ne_eq, not_true_eq_false, false_and, if_false, hcol]
    rw [if_pos ⟨by trivial, by simp⟩]
    rw [show joinNl [f] = f from rfl, hf, cbmAuxNil]
  · -- spelling 5: $$f1 / f2 / $$
    rw [cbmAux]
    rw [show pyStrip (dd ++ f1) = dd ++ f1 from by
      apply pyStripEqSelfOf
      · intro c hcc
        rw [show ((dd ++ f1)).head? = some '$' from by simp [dd]] at hcc
        injection hcc with he
        subst he
        decide
      · intro c hcc
        rw [List.getLast?_append_of_ne_nil _ hf1ne] at hcc
        exact pyStripLastFact f1 hf1 c hcc]
    rw [show startsWithL dd (dd ++ f1) = true from startsWithLSelf dd f1]
    rw [if_pos rfl]
    rw [show (dd ++ f1).drop 2 = f1 from by simp [dd], hf1]
    rw [if_neg (by rw [hf1e]; simp)]
    rw [show (if f1 ≠ [] then [f1] else []) = [f1] from by simp [hf1ne]]
    have hcol : collectMath [f1] [f2, dd] = (true, [f1, f2], []) := by
      rw [collectMath]
      simp only [hf2]
      rw [if_neg (fun he => by rw [he, endsWithLddDD] at hf2e; exact absurd hf2e (by simp)),
        if_neg (by rw [hf2e]; simp), if_neg (by simp)]
      rw [collectMath]
      rw [show pyStrip dd = dd from by decide, if_pos rfl]
      simp
    rw [hcol]
    rw [if_pos ⟨by trivial, by simp⟩]
    rw [show joinNl [f1, f2] = f1 ++ '\n' :: f2 from joinNlPair f1 f2]
    rw [show pyStrip (f1 ++ '\n' :: f2) = f1 ++ '\n' :: f2 from by
      apply pyStripEqSelfOf
      · intro c hcc
        cases hf1c : f1 with
        | nil => exact absurd hf1c hf1ne
        | cons a t =>
          rw [hf1c] at hcc
          simp only [List.cons_append, List.head?_cons] at hcc
          injection hcc with he
          rw [← he]
          exact pyStripHeadFact f1 hf1 a (by rw [hf1c]; rfl)
      · intro c hcc
        rw [List.getLast?_append_of_ne_nil _ (by simp),
          show ('\n' :: f2) = ['\n'] ++ f2 from rfl,
          List.getLast?_append_of_ne_nil _ hf2ne] at hcc
        exact pyStripLastFact f2 hf2 c hcc]
    rw [cbmAuxNil]

/-- Witness for C7 at concrete formula bodies. -/
theorem c7_witness :
    cbmAux 1 [dd ++ "x+y".data ++ dd] = [[], dd, "x+y".data, dd, []] ∧
    cbmAux 3 [dd, "x+y".data, dd] = [[], dd, "x+y".data, dd, []] ∧
    cbmAux 2 [dd ++ "x+y".data, dd] = [[], dd, "x+y".data, dd, []] ∧
    cbmAux 2 [dd, "x+y".data ++ dd] = [[], dd, "x+y".data, dd, []] ∧
    cbmAux 3 [dd ++ "a".data, "b".data, dd] =
      [[], dd, "a".data ++ '\n' :: "b".data, dd, []] :=
  c7_five_spellings ("x+y".data) ("a".data) ("b".data) (by decide) (by decide) (by decide)
    (by decide) (by decide) (by decide) (by decide) (by decide) (by decide)

theorem replCRLFConsNe (c : Char) (t : List Char) (hc : c ≠ '\r') :
    replCRLF (c :: t) = c :: replCRLF t := by
  rw [replCRLF.eq_def]
  split
  · rename_i heq
    exact absurd heq (by simp)
  · rename_i heq
    injection heq with h1 _
    exact absurd h1 hc
  · rename_i c2 rest2 hno heq
    injection heq with h1 h2
    rw [h1, h2]

theorem replCRLFId : ∀ (l : List Char), '\r' ∉ l → replCRLF l = l := by
  intro l
  induction l with
  | nil => intro _; rfl
  | cons c t ih =>
    intro h
    rw [replCRLFConsNe c t (fun he => h (by simp [he])), ih (fun hm => h (by simp [hm]))]

theorem collapseGoNoNl : ∀ (l : List Char), '\n' ∉ l → ∀ rest,
    collapseGo (l ++ rest) 0 = l ++ collapseGo rest 0 := by
  intro l
  induction l with
  | nil => intro _ rest; rfl
  | cons c t ih =>
    intro h rest
    have hc : c ≠ '\n' := fun he => h (by simp [he])
    rw [List.cons_append, collapseGo, if_neg hc]
    rw [ih (fun hm => h (by simp [hm])) rest]
    rfl

theorem collapseGoOne : ∀ (l : List Char), '\n' ∉ l → l ≠ [] → ∀ rest,
    collapseGo (l ++ rest) 1 = '\n' :: (l ++ collapseGo rest 0) := by
  intro l hnl hne rest
  cases l with
  | nil => exact absurd rfl hne
  | cons c t =>
    have hc : c ≠ '\n' := fun he => hnl (by simp [he])
    rw [List.cons_append, collapseGo, if_neg hc]
    rw [collapseGoNoNl t (fun hm => hnl (by simp [hm])) rest]
    rfl

/-- C5 counterexample: normalizing ordinary text that surrounds canonical
block math adds an extra blank line on each side of the formula at every
pass (collapsed only at 4+ newlines), so `normalize` is not idempotent. -/
theorem c5_counterexample : convert (convert c5Input) ≠ convert c5Input := by decide

theorem cbmAuxCanonical (f : List Char) (hf : pyStrip f = f) (hfe : endsWithL dd f = false) :
    cbmAux 3 [dd, f, dd] = [[], dd, f, dd, []] := by
  rw [cbmAux]
  rw [show pyStrip dd = dd from by decide, if_pos (by decide),
    show pyStrip (List.drop 2 dd) = ([] : List Char) from by decide]
  simp only [ne_eq, not_true_eq_false, false_and, if_false,
    collectMathSingleClose f hf hfe]
  rw [if_pos ⟨by trivial, by simp⟩]
  rw [show joinNl [f] = f from rfl, hf, cbmAuxNil]

theorem pyStripNlSandwich (Y : List Char) (h : pyStrip Y = Y) (hne : Y ≠ []) :
    pyStrip ('\n' :: (Y ++ ['\n'])) = Y := by
  obtain ⟨d1, d2⟩ := pyStripSelfParts Y h
  unfold pyStrip
  rw [List.dropWhile_cons, if_pos (by decide)]
  have hY : List.dropWhile pyIsSpace (Y ++ ['\n']) = Y ++ ['\n'] := by
    cases hYc : Y with
    | nil => exact absurd hYc hne
    | cons c t =>
      rw [List.cons_append, List.dropWhile_cons,
        if_neg (by
          rw [pyStripHeadFact Y h c (by rw [hYc]; rfl)]
          simp)]
  rw [hY, List.reverse_append]
  rw [show (['\n'] : List Char).reverse = ['\n'] from rfl, List.singleton_append]
  rw [List.dropWhile_cons, if_pos (by decide), d2, List.reverse_reverse]

/-- C5 amended: the normalizer is not idempotent in general (see the
counterexample), but it is the identity — hence idempotent — on a document
that consists exactly of one canonical block formula `$$`, body, `$$`,
for a trimmed, nonempty, single-line body not ending in the marker. -/
theorem c5_amended (f : List Char) (hf : pyStrip f = f) (hfne : f ≠ [])
    (hfe : endsWithL dd f = false) (hnl : '\n' ∉ f) (hcr : '\r' ∉ f) :
    convert (dd ++ '\n' :: (f ++ '\n' :: dd)) = dd ++ '\n' :: (f ++ '\n' :: dd) ∧
    convert (convert (dd ++ '\n' :: (f ++ '\n' :: dd))) =
      convert (dd ++ '\n' :: (f ++ '\n' :: dd)) := by
  have hfdd : f ≠ dd := fun he => by
    rw [he, endsWithLddDD] at hfe
    exact absurd hfe (by simp)
  have hmain : convert (dd ++ '\n' :: (f ++ '\n' :: dd)) = dd ++ '\n' :: (f ++ '\n' :: dd) := by
    unfold convert
    rw [replCRLFId _ (by
      intro hm
      simp [dd] at hm
      exact hcr hm)]
    rw [show convertBlockMath (dd ++ '\n' :: (f ++ '\n' :: dd)) =
        joinNl [[], dd, f, dd, []] from by
      unfold convertBlockMath
      rw [splitNlAppendNl dd _ (by decide), splitNlAppendNl f _ hnl,
        splitNlNoNl dd (by decide)]
      rw [show lenT [dd, f, dd] = 3 from by rw [lenT_eq]; rfl]
      rw [cbmAuxCanonical f hf hfe]]
    rw [show convertInlineMath (joinNl [[], dd, f, dd, []]) =
        joinNl [[], dd, f, dd, []] from by
      unfold convertInlineMath
      rw [show joinNl [[], dd, f, dd, []] =
          [] ++ '\n' :: (dd ++ '\n' :: (f ++ '\n' :: (dd ++ '\n' :: []))) from by
        simp [joinNl, joinWith]]
      rw [splitNlAppendNl [] _ (by simp), splitNlAppendNl dd _ (by decide),
        splitNlAppendNl f _ hnl, splitNlAppendNl dd _ (by decide),
        splitNlNoNl [] (by simp)]
      rw [cimAux, if_neg (by decide), if_neg (by decide),
        show subInline [] = [] from rfl]
      rw [cimAux, if_pos (by decide)]
      rw [cimAux, if_neg (by rw [hf]; exact hfdd), if_pos (by simp)]
      rw [cimAux, if_pos (by decide)]
      rw [cimAux, if_neg (by decide), if_neg (by decide),
        show subInline [] = [] from rfl]
      simp [joinNl, joinWith, cimAux]]
    rw [show joinNl [[], dd, f, dd, []] =
        '\n' :: '$' :: '$' :: '\n' :: (f ++ ('\n' :: '$' :: '$' :: ['\n'])) from by
      simp [joinNl, joinWith, dd]]
    rw [show collapseNl ('\n' :: '$' :: '$' :: '\n' :: (f ++ ('\n' :: '$' :: '$' :: ['\n']))) =
        '\n' :: '$' :: '$' :: collapseGo (f ++ ('\n' :: '$' :: '$' :: ['\n'])) 1 from rfl]
    rw [collapseGoOne f hnl hfne _]
    rw [show collapseGo ('\n' :: '$' :: '$' :: ['\n']) 0 = '\n' :: '$' :: '$' :: ['\n'] from by
      decide]
    rw [show ('\n' :: '$' :: '$' :: '\n' :: (f ++ ('\n' :: '$' :: '$' :: ['\n'])) : List Char) =
        '\n' :: ((dd ++ '\n' :: (f ++ '\n' :: dd)) ++ ['\n']) from by
      simp [dd]]
    rw [pyStripNlSandwich _ (by
      apply pyStripEqSelfOf
      · intro c hcc
        rw [show ((dd ++ '\n' :: (f ++ '\n' :: dd))).head? = some '$' from by simp [dd]] at hcc
        injection hcc with he
        subst he
        decide
      · intro c hcc
        rw [List.getLast?_append_of_ne_nil _ (by simp),
          show ('\n' :: (f ++ '\n' :: dd)) = ['\n'] ++ (f ++ '\n' :: dd) from rfl,
          List.getLast?_append_of_ne_nil _ (by simp),
          List.getLast?_append_of_ne_nil _ (by simp),
          show ('\n' :: dd) = ['\n'] ++ dd from rfl,
          List.getLast?_append_of_ne_nil _ (by simp [dd]),
          show dd.getLast? = some '$' from by decide] at hcc
        injection hcc with he
        subst he
        decide) (by simp [dd])]
  exact ⟨hmain, by rw [hmain, hmain]⟩

/-- Witness for the amended C5 at a concrete formula body. -/
theorem c5_amended_witness :
    convert (dd ++ '\n' :: ("E=mc^2".data ++ '\n' :: dd)) =
      dd ++ '\n' :: ("E=mc^2".data ++ '\n' :: dd) ∧
    convert (convert (dd ++ '\n' :: ("E=mc^2".data ++ '\n' :: dd))) =
      convert (dd ++ '\n' :: ("E=mc^2".data ++ '\n' :: dd)) :=
  c5_amended ("E=mc^2".data) (by decide) (by decide) (by decide) (by decide) (by decide)
